import Mathlib

/-!
# Replicated key/value service: apply loop and log structure

A shallow embedding of `src/kvraft/server.go` (the apply loop of `KVServer`,
`doCommand`, `makeSnapshot`) and of `src/raft/util.go` (the `RaftLog`
structure), together with theorems about them.

Conventions of the embedding.

* Go maps are total functions into `Option`: `m k = none` is the Go lookup
  with `ok = false`, and `GoMap.set` is the Go assignment `m[k] = v`.  Maps
  are taken to be allocated (non-nil), as `StartKVServer` makes them.
* `int64` and `int` (64-bit) values are integers; the one signed addition of
  the code, `op.OpID + 1`, wraps through `int64Wrap`.
* `uint64` values are natural numbers; every `uint64` addition and
  subtraction of the code wraps through `add64` and `sub64`.
* A Go panic and `os.Exit` are the result `none`.
* Pointers to log entries stored in a log are non-nil; a `nil` entry result
  of `getLogEntryByIndex` is `none` in the second component.
* A channel is identified by a number; a send `finishChan <- value` is
  recorded as the pair of the channel and the value sent.
-/

set_option linter.dupNamespace false

namespace KVRaft

/-! ## Machine integers -/

/-- The largest `int64`. -/
def int64Max : Int := 9223372036854775807

/-- The smallest `int64`. -/
def int64Min : Int := -9223372036854775808

/-- Membership in the `int64` range. -/
def isInt64 (x : Int) : Prop := int64Min ≤ x ∧ x ≤ int64Max

instance (x : Int) : Decidable (isInt64 x) := by
  unfold isInt64; infer_instance

/-- Two's-complement reduction of an integer to the `int64` range. -/
def int64Wrap (x : Int) : Int :=
  (x + 9223372036854775808) % 18446744073709551616 - 9223372036854775808

/-- Addition of `uint64` values. -/
def add64 (a b : Nat) : Nat := (a + b) % 18446744073709551616

/-- Subtraction of `uint64` values. -/
def sub64 (a b : Nat) : Nat :=
  (a + (18446744073709551616 - b % 18446744073709551616)) % 18446744073709551616

/-- Go conversion `int(t)` of a `uint64` value `t` (64-bit `int`). -/
def intOfUint64 (t : Nat) : Int := int64Wrap (t : Int)

/-- Go conversion `uint64(i)` of an `int` value `i`. -/
def uint64OfInt (i : Int) : Nat := (i % 18446744073709551616).toNat

/-! ## Go maps -/

/-- A Go map: a lookup that answers `none` when the key is absent. -/
abbrev GoMap (κ ν : Type) := κ → Option ν

/-- The empty map, `make(map[K]V)`. -/
def GoMap.empty {κ ν : Type} : GoMap κ ν := fun _ => none

/-- The assignment `m[k] = v`. -/
def GoMap.set {κ ν : Type} [DecidableEq κ] (m : GoMap κ ν) (k : κ) (v : ν) : GoMap κ ν :=
  fun x => if x = k then some v else m x

/-! ## Data model of the key/value server -/

/-- The operation descriptor `Op` of `server.go`. -/
structure Op where
  ClerkID : Int
  OpID : Int
  Op : String
  Key : String
  Value : String
deriving DecidableEq

/-- Modelled from the spec: the type `raft.Snapshot` is declared outside the
given sources; the spec gives it as `{lastIndex, lastTerm, state, dedupTable}`
and `makeSnapshot` fills exactly these four fields. -/
structure Snapshot where
  LastIndex : Nat
  LastTerm : Nat
  State : GoMap String String
  ClerkBolts : GoMap Int Int

/-- Modelled from the spec: the type `raft.ApplyMsg` is declared outside the
given sources; these are the fields the apply loop reads.  `Command` is the
result of the type assertion `msg.Command.(Op)`: `none` when the payload is
not an `Op`. -/
structure ApplyMsg where
  CommandValid : Bool
  Command : Option Op
  CommandIndex : Int
  Term : Nat
  Snapshot : Snapshot

/-- The fields of `KVServer` that the apply loop reads or writes.
`raftStateSize` is the value of `kv.persister.RaftStateSize()`. -/
structure KVServer where
  finishChans : GoMap Int Nat
  reqTerm : GoMap Int Int
  data : GoMap String String
  clerkBolts : GoMap Int Int
  maxraftstate : Int
  raftStateSize : Int

/-- The state built by `StartKVServer`: four empty maps. -/
def StartKVServer (maxraftstate raftStateSize : Int) : KVServer :=
  { finishChans := GoMap.empty
    reqTerm := GoMap.empty
    data := GoMap.empty
    clerkBolts := GoMap.empty
    maxraftstate := maxraftstate
    raftStateSize := raftStateSize }

/-- The method `doCommand`: the returned string and the server afterwards.
In the `Append` case the inner `value, ok := ...` shadows the result
variable, so `Put` and `Append` return the empty string. -/
def KVServer.doCommand (kv : KVServer) (op : Op) : String × KVServer :=
  if op.Op = "Get" then
    match kv.data op.Key with
    | some value => (value, kv)
    | none => ("", kv)
  else if op.Op = "Put" then
    ("", { kv with data := kv.data.set op.Key op.Value })
  else if op.Op = "Append" then
    match kv.data op.Key with
    | none => ("", { kv with data := kv.data.set op.Key op.Value })
    | some value => ("", { kv with data := kv.data.set op.Key (value ++ op.Value) })
  else
    ("", kv)

/-- The method `makeSnapshot`: the snapshot handed to `rf.MakeSnapshot`, or
`none` when the method returns early. -/
def KVServer.makeSnapshot (kv : KVServer) (lastTerm lastIndex : Nat) : Option Snapshot :=
  if kv.maxraftstate = -1 ∨ kv.raftStateSize ≤ kv.maxraftstate then
    none
  else
    some { LastIndex := lastIndex
           LastTerm := lastTerm
           State := kv.data
           ClerkBolts := kv.clerkBolts }

/-- What one iteration of the apply loop produces: the server afterwards,
the send on a waiter channel (channel and value) if one happened, the
snapshot handed to the consensus module if one was, and `fresh`, a ghost
flag telling that the iteration went through the branch of lines 172-175
(`doCommand` followed by the update of `clerkBolts`). -/
structure ApplyResult where
  kv : KVServer
  sent : Option (Nat × String)
  snapshot : Option Snapshot
  fresh : Bool

/-- One iteration of the loop of `apply` on the message `msg`.  The result
is `none` when the payload is not an `Op` (`os.Exit(1)`). -/
def KVServer.apply (kv : KVServer) (msg : ApplyMsg) : Option ApplyResult :=
  if !msg.CommandValid then
    some { kv := { kv with clerkBolts := msg.Snapshot.ClerkBolts, data := msg.Snapshot.State }
           sent := none
           snapshot := none
           fresh := false }
  else
    match msg.Command with
    | none => none
    | some op =>
      let old : Bool :=
        match kv.clerkBolts op.ClerkID with
        | some bolt => decide (op.OpID < bolt)
        | none => false
      let step : String × KVServer :=
        if old then
          (if op.Op = "Get" then kv.doCommand op else ("", kv))
        else
          let r := kv.doCommand op
          (r.1, { r.2 with clerkBolts := r.2.clerkBolts.set op.ClerkID (int64Wrap (op.OpID + 1)) })
      let value := step.1
      let kv1 := step.2
      let sent : Option (Nat × String) :=
        match kv1.finishChans msg.CommandIndex, kv1.reqTerm msg.CommandIndex with
        | some finishChan, some term =>
          if term = intOfUint64 msg.Term then some (finishChan, value) else none
        | _, _ => none
      some { kv := kv1
             sent := sent
             snapshot := kv1.makeSnapshot msg.Term (uint64OfInt msg.CommandIndex)
             fresh := !old }

/-- The apply loop run over a list of messages, in order. -/
def KVServer.applyAll (kv : KVServer) : List ApplyMsg → Option KVServer
  | [] => some kv
  | msg :: rest =>
    match kv.apply msg with
    | none => none
    | some r => r.kv.applyAll rest

/-- The number of iterations, in the run over the given messages, that went
through the non-suppressed branch on an operation of clerk `c` with
operation number `o`. -/
def KVServer.effectCount (kv : KVServer) (c o : Int) : List ApplyMsg → Nat
  | [] => 0
  | msg :: rest =>
    match kv.apply msg with
    | none => 0
    | some r =>
      (match msg.Command with
        | some op => if r.fresh = true ∧ op.ClerkID = c ∧ op.OpID = o then 1 else 0
        | none => 0) + r.kv.effectCount c o rest

/-- The run over the given messages returns, and every operation that goes
through the non-suppressed branch carries the number its clerk is expected
to use next: the bolt of the clerk, or 0 for a clerk without a bolt. -/
def KVServer.gapFree (kv : KVServer) : List ApplyMsg → Bool
  | [] => true
  | msg :: rest =>
    match kv.apply msg with
    | none => false
    | some r =>
      (match msg.Command with
        | some op => !r.fresh || decide (op.OpID = (kv.clerkBolts op.ClerkID).getD 0)
        | none => true) && r.kv.gapFree rest

/-- A committed-command message: `CommandValid` is set and the payload is
an operation descriptor. -/
def ApplyMsg.isCommand (msg : ApplyMsg) : Prop :=
  msg.CommandValid = true ∧ ∃ op, msg.Command = some op

/-- A committed-command message whose `OpID` is below the `int64` maximum. -/
def ApplyMsg.belowMax (msg : ApplyMsg) : Prop :=
  msg.CommandValid = true ∧ ∃ op, msg.Command = some op ∧ op.OpID < int64Max

/-- A committed-command message whose `OpID` is an `int64` below the
maximum. -/
def ApplyMsg.inRange (msg : ApplyMsg) : Prop :=
  msg.CommandValid = true ∧ ∃ op, msg.Command = some op ∧ int64Min ≤ op.OpID ∧ op.OpID < int64Max

/-- A committed-command message carrying the operation `op`. -/
def commandMsg (op : Op) (index : Int) (term : Nat) : ApplyMsg :=
  { CommandValid := true
    Command := some op
    CommandIndex := index
    Term := term
    Snapshot := { LastIndex := 0, LastTerm := 0, State := GoMap.empty, ClerkBolts := GoMap.empty } }

end KVRaft

namespace Raft

open KVRaft (add64 sub64)

/-! ## Data model of the log -/

/-- Modelled from the spec: the type `LogEntry` is declared outside the given
sources; the spec gives it as an opaque command payload plus the term in
which it was appended.  The payload of the entries the log builds itself
(`&LogEntry{Term: t}`) is nil, here `none`. -/
structure LogEntry where
  Term : Nat
  Command : Option Nat
deriving DecidableEq

/-- The structure `RaftLog` of `util.go`. -/
structure RaftLog where
  Used : Nat
  In : Nat
  Log : List LogEntry
  Base : Nat
  SnapshotLastIndex : Nat
  SnapshotLastTerm : Nat
deriving DecidableEq

/-- The function `newRaftLog`: one sentinel entry of term 0 at index 0. -/
def newRaftLog : RaftLog :=
  { Used := 1
    In := 1
    Log := [{ Term := 0, Command := none }]
    Base := 0
    SnapshotLastIndex := 0
    SnapshotLastTerm := 0 }

/-- The method `discardOldLog`.  The result is `none` when the slice
expression `log.Log[guard-log.Base+1:]` panics (start beyond the length). -/
def RaftLog.discardOldLog (log : RaftLog) (guard : Nat) : Option RaftLog :=
  if guard ≥ log.In then
    some { log with
      Log := []
      Used := 0
      Base := add64 guard 1
      In := add64 guard 1 }
  else
    let k := add64 (sub64 guard log.Base) 1
    if k ≤ log.Log.length then
      some { log with
        Log := log.Log.drop k
        Used := sub64 log.Used k
        Base := add64 guard 1 }
    else
      none

/-- The method `setSnapshotLastIndexAndSnapshotLastTerm`. -/
def RaftLog.setSnapshotLastIndexAndSnapshotLastTerm (log : RaftLog)
    (snapshotLastIndex snapshotLastTerm : Nat) : RaftLog :=
  { log with SnapshotLastIndex := snapshotLastIndex, SnapshotLastTerm := snapshotLastTerm }

/-- The method `getLastLogEntryIndex`. -/
def RaftLog.getLastLogEntryIndex (log : RaftLog) : Nat := sub64 log.In 1

/-- The method `getLogEntryByIndex`: the flag and the entry (`none` for a nil
entry).  The outer result is `none` when `log.Log[index-log.Base]` panics. -/
def RaftLog.getLogEntryByIndex (log : RaftLog) (index : Nat) : Option (Bool × Option LogEntry) :=
  if index ≥ log.Base ∧ index < log.In then
    match log.Log[sub64 index log.Base]? with
    | some entry => some (false, some entry)
    | none => none
  else if index = log.SnapshotLastIndex then
    some (false, some { Term := log.SnapshotLastTerm, Command := none })
  else if index < log.SnapshotLastIndex then
    some (true, none)
  else
    some (false, none)

/-- The method `appendEntries`: the returned start index and the log
afterwards. -/
def RaftLog.appendEntries (log : RaftLog) (entries : List LogEntry) : Nat × RaftLog :=
  (log.In,
   { log with
     Log := log.Log ++ entries
     In := add64 log.In entries.length
     Used := add64 log.Used entries.length })

/-- Structural well-formedness of a log: the backing sequence holds exactly
the entries of the window from `Base` up to `In`. -/
def RaftLog.wellFormed (log : RaftLog) : Prop :=
  log.Base ≤ log.In ∧ log.Log.length = log.In - log.Base

instance (log : RaftLog) : Decidable log.wellFormed := by
  unfold RaftLog.wellFormed; infer_instance

/-- The index fields of the log are `uint64` values. -/
def RaftLog.isUint64 (log : RaftLog) : Prop :=
  log.In < 18446744073709551616 ∧ log.Base < 18446744073709551616

instance (log : RaftLog) : Decidable log.isUint64 := by
  unfold RaftLog.isUint64; infer_instance

/-- The method `getLastLogEntryIndexAndTerm`.  The result is `none` when the
method panics: on the explicit `panic` (`Used` is 0 but `Log` is not empty)
or on an index out of range. -/
def RaftLog.getLastLogEntryIndexAndTerm (log : RaftLog) : Option (Nat × Nat) :=
  if log.Used = 0 then
    if log.Log.length ≠ 0 then
      none
    else
      some (log.SnapshotLastIndex, log.SnapshotLastTerm)
  else
    match log.Log[sub64 (sub64 log.In log.Base) 1]? with
    | some entry => some (sub64 log.In 1, entry.Term)
    | none => none

/-- The loop of `getLogEntryByRange` with `n` iterations left: the loop
variable `i` and the slice `entries` built so far.  The result is `none`
when `log.Log[i-log.Base]` panics. -/
def RaftLog.getLogEntryByRangeLoop (log : RaftLog) :
    Nat → Nat → List LogEntry → Option (List LogEntry)
  | 0, _, entries => some entries
  | n + 1, i, entries =>
    match log.Log[sub64 i log.Base]? with
    | some entry => log.getLogEntryByRangeLoop n (add64 i 1) (entries ++ [entry])
    | none => none

/-- The method `getLogEntryByRange`: `some none` is the result `nil`,
`some (some entries)` a returned slice, `none` a panic.  The loop
`for i := fromIndex; i < toIndex; i++` runs `toIndex - fromIndex` times
(no time when `toIndex <= fromIndex`). -/
def RaftLog.getLogEntryByRange (log : RaftLog) (fromIndex toIndex : Nat) :
    Option (Option (List LogEntry)) :=
  if ¬ (fromIndex ≥ log.Base ∧ toIndex ≤ log.In) then
    some none
  else
    (log.getLogEntryByRangeLoop (toIndex - fromIndex) fromIndex []).map some

/-- The method `deleteEntriesByIndex`.  The result is `none` when the bound
of `log.Log[:preIndex-log.Base+1]` exceeds the length of `Log`: the slice
expression then panics or, within the capacity of the slice, brings back
entries of the backing array, which this embedding does not keep. -/
def RaftLog.deleteEntriesByIndex (log : RaftLog) (preIndex : Nat) : Option RaftLog :=
  let oldIn := log.In
  let newIn := add64 preIndex 1
  let k := add64 (sub64 preIndex log.Base) 1
  if k ≤ log.Log.length then
    some { log with
      In := newIn
      Used := sub64 log.Used (sub64 oldIn newIn)
      Log := log.Log.take k ++ log.Log.drop log.Log.length }
  else
    none

/-- The loop of `compareEntries` on the entries still to compare, with the
current value of `curIndex`.  The result is `none` when the loop panics: on
`entry.Term` for a nil `entry`, or inside `getLogEntryByIndex`. -/
def RaftLog.compareEntriesLoop (log : RaftLog) : Nat → List LogEntry → Option Bool
  | _, [] => some true
  | curIndex, e :: rest =>
    if curIndex ≥ log.In then
      some false
    else
      match log.getLogEntryByIndex curIndex with
      | some (_, some entry) =>
        if entry.Term ≠ e.Term then
          some false
        else
          log.compareEntriesLoop (add64 curIndex 1) rest
      | _ => none

/-- The method `compareEntries`. -/
def RaftLog.compareEntries (log : RaftLog) (preLogIndex : Nat) (entries : List LogEntry) :
    Option Bool :=
  log.compareEntriesLoop (add64 preLogIndex 1) entries

/-- The structural invariant of a log: `Base <= In` and
`len(Log) = In - Base = Used`. -/
def RaftLog.structural (log : RaftLog) : Prop :=
  log.Base ≤ log.In ∧ log.Log.length = log.In - log.Base ∧ log.Used = log.In - log.Base

instance (log : RaftLog) : Decidable log.structural := by
  unfold RaftLog.structural; infer_instance

end Raft

namespace KVRaft

/-! ## Concrete states and messages used in the checks below -/

/-- A server holding `x = "1"`, with clerk 1 at bolt 3, one waiter at index 7
submitted under term 2, and snapshots disabled. -/
def sampleServer : KVServer :=
  { finishChans := GoMap.empty.set 7 40
    reqTerm := GoMap.empty.set 7 2
    data := GoMap.empty.set "x" "1"
    clerkBolts := GoMap.empty.set 1 3
    maxraftstate := -1
    raftStateSize := 0 }

/-- A snapshot holding `y = "9"` with clerk 2 at bolt 5. -/
def sampleSnapshot : Snapshot :=
  { LastIndex := 500
    LastTerm := 4
    State := GoMap.empty.set "y" "9"
    ClerkBolts := GoMap.empty.set 2 5 }

/-- A first committed command: clerk 1, operation 0, `Put("x", "1")`. -/
def retryBefore : List ApplyMsg := [commandMsg (Op.mk 1 0 "Put" "x" "1") 1 1]

/-- The operation committed twice: clerk 1, operation 1, `Append("x", "2")`. -/
def retryOp : Op := Op.mk 1 1 "Append" "x" "2"

/-- A command of another clerk committed between the two commits. -/
def retryBetween : List ApplyMsg := [commandMsg (Op.mk 2 0 "Get" "x" "") 3 1]

/-- The three operations of one clerk: `Put("x", "1")`, `Append("x", "2")`,
`Get("x")`, numbered 0, 1, 2. -/
def threeOps : List ApplyMsg :=
  [commandMsg (Op.mk 1 0 "Put" "x" "1") 1 1, commandMsg (Op.mk 1 1 "Append" "x" "2") 2 1,
   commandMsg (Op.mk 1 2 "Get" "x" "") 3 1]

/-- A run in which the first operation a clerk commits has number 5. -/
def skippingRun : List ApplyMsg := [commandMsg (Op.mk 1 5 "Put" "k" "v") 1 1]

/-- An empty server with waiters at the indices 1 and 3, both submitted
under term 1, on the channels 41 and 43. -/
def waitingServer : KVServer :=
  { finishChans := (GoMap.empty.set 1 41).set 3 43
    reqTerm := (GoMap.empty.set 1 1).set 3 1
    data := GoMap.empty
    clerkBolts := GoMap.empty
    maxraftstate := -1
    raftStateSize := 0 }

/-- The operation `Get("x")` of clerk 1 with number 0, committed at index 1. -/
def rereadFirst : ApplyMsg := commandMsg (Op.mk 1 0 "Get" "x" "") 1 1

/-- The operation `Put("x", "1")` of clerk 2, committed at index 2. -/
def rereadPut : ApplyMsg := commandMsg (Op.mk 2 0 "Put" "x" "1") 2 1

/-- The operation of `rereadFirst` committed once more, at index 3. -/
def rereadAgain : ApplyMsg := commandMsg (Op.mk 1 0 "Get" "x" "") 3 1

/-- The server `sampleServer` with other waiters, another `maxraftstate` and
another persisted size, and the same data and bolts. -/
def sampleServerOther : KVServer :=
  { finishChans := GoMap.empty.set 9 50
    reqTerm := GoMap.empty
    data := sampleServer.data
    clerkBolts := sampleServer.clerkBolts
    maxraftstate := 100
    raftStateSize := 1000 }

/-- A snapshot-install message carrying `sampleSnapshot`. -/
def sampleInstall : ApplyMsg :=
  { CommandValid := false
    Command := none
    CommandIndex := 0
    Term := 0
    Snapshot := sampleSnapshot }

end KVRaft

namespace Raft

/-- A log of three live entries with terms 0, 1, 2 at indices 0, 1, 2. -/
def sampleLog : RaftLog :=
  { Used := 3
    In := 3
    Log := [{ Term := 0, Command := none }, { Term := 1, Command := some 11 },
            { Term := 2, Command := some 12 }]
    Base := 0
    SnapshotLastIndex := 0
    SnapshotLastTerm := 0 }

/-- A compacted log: the snapshot covers the indices up to 3 (last term 2)
and two live entries of term 3 sit at indices 4 and 5. -/
def compactedLog : RaftLog :=
  { Used := 2
    In := 6
    Log := [{ Term := 3, Command := some 14 }, { Term := 3, Command := some 15 }]
    Base := 4
    SnapshotLastIndex := 3
    SnapshotLastTerm := 2 }

/-- A log with one live entry whose `Used` counter says 0. -/
def unsyncedLog : RaftLog :=
  { Used := 0
    In := 1
    Log := [{ Term := 0, Command := none }]
    Base := 0
    SnapshotLastIndex := 0
    SnapshotLastTerm := 0 }

/-- An empty log whose window sits at the largest `uint64` index. -/
def edgeLog : RaftLog :=
  { Used := 0
    In := 18446744073709551615
    Log := []
    Base := 18446744073709551615
    SnapshotLastIndex := 0
    SnapshotLastTerm := 0 }

end Raft

/-! # Theorems -/

namespace KVRaft

/-! ## Map and arithmetic lemmas -/

theorem GoMap.set_same {κ ν : Type} [DecidableEq κ] (m : GoMap κ ν) (k : κ) (v : ν) :
    m.set k v k = some v := by
  simp [GoMap.set]

theorem GoMap.set_other {κ ν : Type} [DecidableEq κ] (m : GoMap κ ν) (k x : κ) (v : ν)
    (h : x ≠ k) : m.set k v x = m x := by
  simp [GoMap.set, h]

theorem int64Wrap_of_range (x : Int) (h : isInt64 x) : int64Wrap x = x := by
  unfold isInt64 int64Min int64Max at h
  unfold int64Wrap
  omega

theorem int64Wrap_succ_gt (x : Int) (h : x < int64Max) : x < int64Wrap (x + 1) := by
  unfold int64Max at h
  unfold int64Wrap
  omega

theorem intOfUint64_inj (a b : Nat) (ha : a < 18446744073709551616)
    (hb : b < 18446744073709551616) (h : intOfUint64 a = intOfUint64 b) : a = b := by
  unfold intOfUint64 int64Wrap at h
  omega

theorem intOfUint64_nonneg (t : Nat) (x : Int) (ht : t < 18446744073709551616)
    (hx : 0 ≤ x) (h : x = intOfUint64 t) : x = (t : Int) := by
  unfold intOfUint64 int64Wrap at h
  omega

/-! ## The state machine: `doCommand` -/

/-- C5: on a `Get` operation `doCommand` returns the binding of the key when
there is one and the empty string when the key is absent, and the server,
its data map included, is left as it was (no key is inserted). -/
theorem doCommand_get (kv : KVServer) (op : Op) (h : op.Op = "Get") :
    (∀ v, kv.data op.Key = some v → (kv.doCommand op).1 = v) ∧
    (kv.data op.Key = none → (kv.doCommand op).1 = "") ∧
    (kv.doCommand op).2 = kv ∧
    (kv.doCommand op).2.data = kv.data := by
  unfold KVServer.doCommand
  rw [if_pos h]
  cases hk : kv.data op.Key <;> simp

theorem doCommand_get_witness :
    (∀ v, sampleServer.data (Op.mk 1 0 "Get" "x" "").Key = some v →
      (sampleServer.doCommand (Op.mk 1 0 "Get" "x" "")).1 = v) ∧
    (sampleServer.data (Op.mk 1 0 "Get" "x" "").Key = none →
      (sampleServer.doCommand (Op.mk 1 0 "Get" "x" "")).1 = "") ∧
    (sampleServer.doCommand (Op.mk 1 0 "Get" "x" "")).2 = sampleServer ∧
    (sampleServer.doCommand (Op.mk 1 0 "Get" "x" "")).2.data = sampleServer.data :=
  doCommand_get sampleServer (Op.mk 1 0 "Get" "x" "") rfl

/-- C6: when key `k` is absent, `doCommand` with `Append(k, v)` leaves the
same data map as `doCommand` with `Put(k, v)`, and a `Get(k)` run afterwards
returns `v`. -/
theorem doCommand_append_absent (kv : KVServer) (k v : String) (c1 o1 c2 o2 c3 o3 : Int)
    (w : String) (h : kv.data k = none) :
    (kv.doCommand (Op.mk c1 o1 "Append" k v)).2.data =
      (kv.doCommand (Op.mk c2 o2 "Put" k v)).2.data ∧
    ((kv.doCommand (Op.mk c1 o1 "Append" k v)).2.doCommand (Op.mk c3 o3 "Get" k w)).1 = v := by
  have e1 : (kv.doCommand (Op.mk c1 o1 "Append" k v)).2 =
      { kv with data := kv.data.set k v } := by
    simp [KVServer.doCommand, h]
  have e2 : (kv.doCommand (Op.mk c2 o2 "Put" k v)).2 =
      { kv with data := kv.data.set k v } := by
    simp [KVServer.doCommand]
  rw [e1, e2]
  refine ⟨rfl, ?_⟩
  simp [KVServer.doCommand, GoMap.set]

theorem doCommand_append_absent_witness :
    (sampleServer.doCommand (Op.mk 1 3 "Append" "k" "hello")).2.data =
      (sampleServer.doCommand (Op.mk 1 3 "Put" "k" "hello")).2.data ∧
    ((sampleServer.doCommand (Op.mk 1 3 "Append" "k" "hello")).2.doCommand
      (Op.mk 1 4 "Get" "k" "")).1 = "hello" :=
  doCommand_append_absent sampleServer "k" "hello" 1 3 1 3 1 4 "" (by decide)

/-! ## The snapshot trigger: `makeSnapshot` -/

/-- C7, as the code has it: `makeSnapshot` hands over the snapshot
`(lastIndex, lastTerm, data, clerkBolts)` exactly when `maxraftstate` is not
`-1` and the persisted size exceeds `maxraftstate`; in every other case it
hands over nothing. -/
theorem makeSnapshot_trigger (kv : KVServer) (lastTerm lastIndex : Nat) :
    ((kv.maxraftstate ≠ -1 ∧ kv.maxraftstate < kv.raftStateSize) →
      kv.makeSnapshot lastTerm lastIndex =
        some { LastIndex := lastIndex, LastTerm := lastTerm,
               State := kv.data, ClerkBolts := kv.clerkBolts }) ∧
    (¬ (kv.maxraftstate ≠ -1 ∧ kv.maxraftstate < kv.raftStateSize) →
      kv.makeSnapshot lastTerm lastIndex = none) := by
  unfold KVServer.makeSnapshot
  constructor
  · rintro ⟨h1, h2⟩
    rw [if_neg]
    omega
  · intro h
    rw [if_pos]
    omega

/-- C7, as stated, fails: with `maxraftstate = 0` and a persisted size of 1
a snapshot is handed over although `maxraftstate > 0` does not hold. -/
theorem makeSnapshot_trigger_counterexample :
    ((StartKVServer 0 1).makeSnapshot 3 5).isSome = true ∧
    ¬ ((StartKVServer 0 1).maxraftstate > 0 ∧
        (StartKVServer 0 1).raftStateSize > (StartKVServer 0 1).maxraftstate) := by
  constructor
  · rfl
  · decide

/-! ## One iteration of the apply loop -/

theorem doCommand_frame (kv : KVServer) (op : Op) :
    (kv.doCommand op).2.finishChans = kv.finishChans ∧
    (kv.doCommand op).2.reqTerm = kv.reqTerm ∧
    (kv.doCommand op).2.clerkBolts = kv.clerkBolts ∧
    (kv.doCommand op).2.maxraftstate = kv.maxraftstate ∧
    (kv.doCommand op).2.raftStateSize = kv.raftStateSize := by
  unfold KVServer.doCommand
  split_ifs <;> (try split) <;> simp

theorem doCommand_on_get_same (kv : KVServer) (op : Op) (h : op.Op = "Get") :
    (kv.doCommand op).2 = kv := by
  unfold KVServer.doCommand
  rw [if_pos h]
  cases kv.data op.Key <;> rfl

theorem apply_command_isSome (kv : KVServer) (msg : ApplyMsg) (op : Op)
    (hv : msg.CommandValid = true) (hc : msg.Command = some op) :
    ∃ r, kv.apply msg = some r := by
  simp [KVServer.apply, hv, hc]

/-- The apply step on a committed command whose `OpID` is below the bolt of
its clerk: the server is unchanged and the branch taken is the suppressed
one. -/
theorem apply_old (kv : KVServer) (msg : ApplyMsg) (op : Op) (b : Int)
    (hv : msg.CommandValid = true) (hc : msg.Command = some op)
    (hb : kv.clerkBolts op.ClerkID = some b) (hlt : op.OpID < b) :
    ∃ r, kv.apply msg = some r ∧ r.kv = kv ∧ r.fresh = false := by
  obtain ⟨r, hr⟩ := apply_command_isSome kv msg op hv hc
  refine ⟨r, hr, ?_⟩
  simp only [KVServer.apply, hv, hc, hb, hlt] at hr
  simp at hr
  subst hr
  by_cases hg : op.Op = "Get"
  · simp [hg, doCommand_on_get_same kv op hg]
  · simp [hg]

/-- The apply step on a committed command that is not below the bolt of its
clerk: `doCommand` runs and the bolt of the clerk becomes `OpID + 1`. -/
theorem apply_fresh (kv : KVServer) (msg : ApplyMsg) (op : Op)
    (hv : msg.CommandValid = true) (hc : msg.Command = some op)
    (hnew : kv.clerkBolts op.ClerkID = none ∨
      ∃ b, kv.clerkBolts op.ClerkID = some b ∧ b ≤ op.OpID) :
    ∃ r, kv.apply msg = some r ∧
      r.kv = { (kv.doCommand op).2 with
        clerkBolts := kv.clerkBolts.set op.ClerkID (int64Wrap (op.OpID + 1)) } ∧
      r.fresh = true := by
  have hfr := (doCommand_frame kv op).2.2.1
  obtain ⟨r, hr⟩ := apply_command_isSome kv msg op hv hc
  refine ⟨r, hr, ?_⟩
  rcases hnew with hn | ⟨b, hb, hle⟩
  · simp only [KVServer.apply, hv, hc, hn] at hr
    simp at hr
    subst hr
    simp [hfr]
  · have hnlt : ¬ op.OpID < b := by omega
    simp only [KVServer.apply, hv, hc, hb, hnlt] at hr
    simp at hr
    subst hr
    simp [hfr]

/-- C8: on a snapshot-install message (`CommandValid = false`) the apply step
returns, its data and `clerkBolts` are the snapshot's `State` and
`ClerkBolts` whatever they were before, nothing is sent on a waiter channel,
nothing is handed to the consensus module, and `finishChans`, `reqTerm` and
the other fields are unchanged. -/
theorem apply_snapshot_install (kv : KVServer) (msg : ApplyMsg)
    (h : msg.CommandValid = false) :
    ∃ r, kv.apply msg = some r ∧
      r.kv.data = msg.Snapshot.State ∧
      r.kv.clerkBolts = msg.Snapshot.ClerkBolts ∧
      r.sent = none ∧
      r.snapshot = none ∧
      r.kv.finishChans = kv.finishChans ∧
      r.kv.reqTerm = kv.reqTerm ∧
      r.kv.maxraftstate = kv.maxraftstate ∧
      r.kv.raftStateSize = kv.raftStateSize := by
  refine ⟨{ kv := { kv with clerkBolts := msg.Snapshot.ClerkBolts, data := msg.Snapshot.State }
            sent := none
            snapshot := none
            fresh := false }, ?_, rfl, rfl, rfl, rfl, rfl, rfl, rfl, rfl⟩
  simp [KVServer.apply, h]

theorem apply_snapshot_install_witness :
    ∃ r, sampleServer.apply sampleInstall = some r ∧
      r.kv.data = sampleInstall.Snapshot.State ∧
      r.kv.clerkBolts = sampleInstall.Snapshot.ClerkBolts ∧
      r.sent = none ∧
      r.snapshot = none ∧
      r.kv.finishChans = sampleServer.finishChans ∧
      r.kv.reqTerm = sampleServer.reqTerm ∧
      r.kv.maxraftstate = sampleServer.maxraftstate ∧
      r.kv.raftStateSize = sampleServer.raftStateSize :=
  apply_snapshot_install sampleServer sampleInstall rfl

/-- The shape of the apply step on a committed command: the waiter tables
are unchanged and the send is decided by the rendezvous test on them. -/
theorem apply_command_shape (kv : KVServer) (msg : ApplyMsg) (op : Op)
    (hv : msg.CommandValid = true) (hc : msg.Command = some op) :
    ∃ r, kv.apply msg = some r ∧
      r.kv.finishChans = kv.finishChans ∧ r.kv.reqTerm = kv.reqTerm ∧
      ∃ value, r.sent =
        match kv.finishChans msg.CommandIndex, kv.reqTerm msg.CommandIndex with
        | some finishChan, some term =>
          if term = intOfUint64 msg.Term then some (finishChan, value) else none
        | _, _ => none := by
  obtain ⟨h1, h2, -⟩ := doCommand_frame kv op
  obtain ⟨r, hr⟩ := apply_command_isSome kv msg op hv hc
  refine ⟨r, hr, ?_⟩
  simp only [KVServer.apply, hv, hc] at hr
  simp only [Bool.not_true, Bool.false_eq_true, if_false, Option.some.injEq] at hr
  subst hr
  split_ifs with hold hget
  · exact ⟨h1, h2, (kv.doCommand op).1, by simp only [h1, h2]⟩
  · exact ⟨rfl, rfl, "", rfl⟩
  · exact ⟨h1, h2, (kv.doCommand op).1, by simp only [h1, h2]⟩

/-- C2: on a committed command the apply step returns; if it sends a value
on a channel, that channel is the one registered in `finishChans` at
`msg.CommandIndex` and `reqTerm` at that index exists and equals the term of
the message (compared as the code does, after the conversion
`int(msg.Term)`, which loses nothing: for a recorded term that is not
negative the two are equal as numbers); when no waiter is registered there
or the recorded term differs, nothing is sent; and `finishChans` and
`reqTerm` are left unchanged in every case. -/
theorem apply_rendezvous (kv : KVServer) (msg : ApplyMsg) (op : Op)
    (hv : msg.CommandValid = true) (hc : msg.Command = some op) :
    ∃ r, kv.apply msg = some r ∧
      (∀ ch v, r.sent = some (ch, v) →
        kv.finishChans msg.CommandIndex = some ch ∧
        kv.reqTerm msg.CommandIndex = some (intOfUint64 msg.Term)) ∧
      (∀ t, r.sent ≠ none → kv.reqTerm msg.CommandIndex = some t → 0 ≤ t →
        msg.Term < 18446744073709551616 → t = (msg.Term : Int)) ∧
      ((kv.finishChans msg.CommandIndex = none ∨
          kv.reqTerm msg.CommandIndex ≠ some (intOfUint64 msg.Term)) → r.sent = none) ∧
      ((∃ ch, kv.finishChans msg.CommandIndex = some ch) →
        kv.reqTerm msg.CommandIndex = some (intOfUint64 msg.Term) → r.sent ≠ none) ∧
      r.kv.finishChans = kv.finishChans ∧
      r.kv.reqTerm = kv.reqTerm := by
  obtain ⟨r, hr, h1, h2, value, hsent⟩ := apply_command_shape kv msg op hv hc
  refine ⟨r, hr, ?_, ?_, ?_, ?_, h1, h2⟩
  · intro ch v hs
    rw [hsent] at hs
    split at hs
    · rename_i c t hc1 ht1
      split_ifs at hs with hterm
      simp only [Option.some.injEq, Prod.mk.injEq] at hs
      rw [hc1, ht1, hs.1, hterm]
      exact ⟨rfl, rfl⟩
    · exact absurd hs (by simp)
  · intro t hs ht hnn hlt
    rw [hsent] at hs
    split at hs
    · rename_i c t1 hc1 ht1
      split_ifs at hs with hterm
      · rw [ht1] at ht
        simp only [Option.some.injEq] at ht
        subst ht
        exact intOfUint64_nonneg msg.Term t1 hlt hnn hterm
      · exact absurd rfl hs
    · exact absurd rfl hs
  · intro h
    rw [hsent]
    split
    · rename_i c t hc1 ht1
      rcases h with h | h
      · rw [hc1] at h
        exact absurd h (by simp)
      · rw [ht1] at h
        have : ¬ t = intOfUint64 msg.Term := fun e => h (by rw [e])
        rw [if_neg this]
    · rfl
  · rintro ⟨ch, hch⟩ ht
    rw [hsent]
    simp only [hch, ht]
    simp

theorem apply_rendezvous_witness :
    ∃ r, sampleServer.apply (commandMsg (Op.mk 1 3 "Get" "x" "") 7 2) = some r ∧
      (∀ ch v, r.sent = some (ch, v) →
        sampleServer.finishChans (commandMsg (Op.mk 1 3 "Get" "x" "") 7 2).CommandIndex = some ch ∧
        sampleServer.reqTerm (commandMsg (Op.mk 1 3 "Get" "x" "") 7 2).CommandIndex =
          some (intOfUint64 (commandMsg (Op.mk 1 3 "Get" "x" "") 7 2).Term)) ∧
      (∀ t, r.sent ≠ none →
        sampleServer.reqTerm (commandMsg (Op.mk 1 3 "Get" "x" "") 7 2).CommandIndex = some t →
        0 ≤ t → (commandMsg (Op.mk 1 3 "Get" "x" "") 7 2).Term < 18446744073709551616 →
        t = ((commandMsg (Op.mk 1 3 "Get" "x" "") 7 2).Term : Int)) ∧
      ((sampleServer.finishChans (commandMsg (Op.mk 1 3 "Get" "x" "") 7 2).CommandIndex = none ∨
          sampleServer.reqTerm (commandMsg (Op.mk 1 3 "Get" "x" "") 7 2).CommandIndex ≠
            some (intOfUint64 (commandMsg (Op.mk 1 3 "Get" "x" "") 7 2).Term)) → r.sent = none) ∧
      ((∃ ch, sampleServer.finishChans
          (commandMsg (Op.mk 1 3 "Get" "x" "") 7 2).CommandIndex = some ch) →
        sampleServer.reqTerm (commandMsg (Op.mk 1 3 "Get" "x" "") 7 2).CommandIndex =
          some (intOfUint64 (commandMsg (Op.mk 1 3 "Get" "x" "") 7 2).Term) → r.sent ≠ none) ∧
      r.kv.finishChans = sampleServer.finishChans ∧
      r.kv.reqTerm = sampleServer.reqTerm :=
  apply_rendezvous sampleServer (commandMsg (Op.mk 1 3 "Get" "x" "") 7 2)
    (Op.mk 1 3 "Get" "x" "") rfl rfl

theorem doCommand_data_other (kv : KVServer) (op : Op) (k : String) (h : k ≠ op.Key) :
    (kv.doCommand op).2.data k = kv.data k := by
  unfold KVServer.doCommand
  split_ifs <;> (try split) <;> simp [GoMap.set, h]

theorem doCommand_data_put (kv : KVServer) (op : Op) (h : op.Op = "Put") :
    (kv.doCommand op).2.data op.Key = some op.Value := by
  simp [KVServer.doCommand, h, GoMap.set]

theorem doCommand_data_append (kv : KVServer) (op : Op) (h : op.Op = "Append") :
    (kv.doCommand op).2.data op.Key = some ((kv.data op.Key).getD "" ++ op.Value) := by
  unfold KVServer.doCommand
  cases hk : kv.data op.Key <;> simp [h, GoMap.set]

theorem doCommand_data_keep (kv : KVServer) (op : Op) (hp : op.Op ≠ "Put")
    (ha : op.Op ≠ "Append") : (kv.doCommand op).2.data = kv.data := by
  unfold KVServer.doCommand
  split_ifs <;> (try split) <;> rfl

/-- C4: on a committed command whose clerk has no `clerkBolts` entry, or
whose `OpID` is at least the clerk's bolt, the apply step returns; the data
map afterwards is the old one with at most `op.Key` rebound (`Put`: to
`op.Value`; `Append`: to the old binding, or the empty string when absent,
followed by `op.Value`; `Get`, and any other operation name: data
unchanged); and `clerkBolts` afterwards is the old table with only
`op.ClerkID` rebound, to `op.OpID + 1` as `int64` addition computes it,
which is the number `op.OpID + 1` for every `OpID` below the `int64`
maximum. -/
theorem apply_fresh_effect (kv : KVServer) (msg : ApplyMsg) (op : Op)
    (hv : msg.CommandValid = true) (hc : msg.Command = some op)
    (hnew : kv.clerkBolts op.ClerkID = none ∨
      ∃ b, kv.clerkBolts op.ClerkID = some b ∧ b ≤ op.OpID) :
    ∃ r, kv.apply msg = some r ∧
      (∀ k, k ≠ op.Key → r.kv.data k = kv.data k) ∧
      (op.Op = "Put" → r.kv.data op.Key = some op.Value) ∧
      (op.Op = "Append" →
        r.kv.data op.Key = some ((kv.data op.Key).getD "" ++ op.Value)) ∧
      (op.Op = "Get" → r.kv.data = kv.data) ∧
      (op.Op ≠ "Put" → op.Op ≠ "Append" → r.kv.data = kv.data) ∧
      r.kv.clerkBolts = kv.clerkBolts.set op.ClerkID (int64Wrap (op.OpID + 1)) ∧
      r.kv.clerkBolts op.ClerkID = some (int64Wrap (op.OpID + 1)) ∧
      (∀ c, c ≠ op.ClerkID → r.kv.clerkBolts c = kv.clerkBolts c) ∧
      (isInt64 op.OpID → op.OpID < int64Max →
        r.kv.clerkBolts op.ClerkID = some (op.OpID + 1)) := by
  obtain ⟨r, hr, hkv, -⟩ := apply_fresh kv msg op hv hc hnew
  have hd : r.kv.data = (kv.doCommand op).2.data := by rw [hkv]
  have hb : r.kv.clerkBolts = kv.clerkBolts.set op.ClerkID (int64Wrap (op.OpID + 1)) := by
    rw [hkv]
  refine ⟨r, hr, ?_, ?_, ?_, ?_, ?_, hb, ?_, ?_, ?_⟩
  · intro k hk
    rw [hd, doCommand_data_other kv op k hk]
  · intro h
    rw [hd, doCommand_data_put kv op h]
  · intro h
    rw [hd, doCommand_data_append kv op h]
  · intro h
    rw [hd]
    exact doCommand_data_keep kv op (by rw [h]; decide) (by rw [h]; decide)
  · intro hp ha
    rw [hd]
    exact doCommand_data_keep kv op hp ha
  · rw [hb, GoMap.set_same]
  · intro c hne
    rw [hb, GoMap.set_other _ _ _ _ hne]
  · intro hr1 hr2
    rw [hb, GoMap.set_same, int64Wrap_of_range]
    unfold isInt64 int64Min int64Max at *
    omega

theorem apply_fresh_effect_witness :
    ∃ r, sampleServer.apply (commandMsg (Op.mk 1 3 "Append" "x" "2") 7 2) = some r ∧
      (∀ k, k ≠ (Op.mk 1 3 "Append" "x" "2").Key → r.kv.data k = sampleServer.data k) ∧
      ((Op.mk 1 3 "Append" "x" "2").Op = "Put" →
        r.kv.data (Op.mk 1 3 "Append" "x" "2").Key = some (Op.mk 1 3 "Append" "x" "2").Value) ∧
      ((Op.mk 1 3 "Append" "x" "2").Op = "Append" →
        r.kv.data (Op.mk 1 3 "Append" "x" "2").Key =
          some ((sampleServer.data (Op.mk 1 3 "Append" "x" "2").Key).getD "" ++
            (Op.mk 1 3 "Append" "x" "2").Value)) ∧
      ((Op.mk 1 3 "Append" "x" "2").Op = "Get" → r.kv.data = sampleServer.data) ∧
      ((Op.mk 1 3 "Append" "x" "2").Op ≠ "Put" → (Op.mk 1 3 "Append" "x" "2").Op ≠ "Append" →
        r.kv.data = sampleServer.data) ∧
      r.kv.clerkBolts = sampleServer.clerkBolts.set (Op.mk 1 3 "Append" "x" "2").ClerkID
        (int64Wrap ((Op.mk 1 3 "Append" "x" "2").OpID + 1)) ∧
      r.kv.clerkBolts (Op.mk 1 3 "Append" "x" "2").ClerkID =
        some (int64Wrap ((Op.mk 1 3 "Append" "x" "2").OpID + 1)) ∧
      (∀ c, c ≠ (Op.mk 1 3 "Append" "x" "2").ClerkID →
        r.kv.clerkBolts c = sampleServer.clerkBolts c) ∧
      (isInt64 (Op.mk 1 3 "Append" "x" "2").OpID → (Op.mk 1 3 "Append" "x" "2").OpID < int64Max →
        r.kv.clerkBolts (Op.mk 1 3 "Append" "x" "2").ClerkID =
          some ((Op.mk 1 3 "Append" "x" "2").OpID + 1)) :=
  apply_fresh_effect sampleServer (commandMsg (Op.mk 1 3 "Append" "x" "2") 7 2)
    (Op.mk 1 3 "Append" "x" "2") rfl rfl (Or.inr ⟨3, by decide, by decide⟩)

/-! ## Runs of the apply loop -/

/-- The two branches of the apply step on a committed command. -/
theorem apply_step (kv : KVServer) (msg : ApplyMsg) (op : Op)
    (hv : msg.CommandValid = true) (hc : msg.Command = some op) :
    ∃ r, kv.apply msg = some r ∧
      ((r.fresh = false ∧ r.kv = kv ∧
          ∃ b, kv.clerkBolts op.ClerkID = some b ∧ op.OpID < b) ∨
       (r.fresh = true ∧
          r.kv.clerkBolts = kv.clerkBolts.set op.ClerkID (int64Wrap (op.OpID + 1)) ∧
          ∀ b, kv.clerkBolts op.ClerkID = some b → b ≤ op.OpID)) := by
  cases hb : kv.clerkBolts op.ClerkID with
  | none =>
    obtain ⟨r, hr, hkv, hf⟩ := apply_fresh kv msg op hv hc (Or.inl hb)
    exact ⟨r, hr, Or.inr ⟨hf, by rw [hkv], fun b h => by simp at h⟩⟩
  | some b =>
    by_cases hlt : op.OpID < b
    · obtain ⟨r, hr, hkv, hf⟩ := apply_old kv msg op b hv hc hb hlt
      exact ⟨r, hr, Or.inl ⟨hf, hkv, b, rfl, hlt⟩⟩
    · obtain ⟨r, hr, hkv, hf⟩ := apply_fresh kv msg op hv hc (Or.inr ⟨b, hb, by omega⟩)
      refine ⟨r, hr, Or.inr ⟨hf, by rw [hkv], fun b1 h => ?_⟩⟩
      simp only [Option.some.injEq] at h
      omega

/-- A bolt never decreases in a step on a command below the `int64`
maximum. -/
theorem apply_bolt_mono (kv : KVServer) (msg : ApplyMsg) (r : ApplyResult)
    (h : msg.belowMax) (hr : kv.apply msg = some r) (c b : Int)
    (hb : kv.clerkBolts c = some b) :
    ∃ b1, r.kv.clerkBolts c = some b1 ∧ b ≤ b1 := by
  obtain ⟨hv, op, hc, hlt⟩ := h
  obtain ⟨r1, hr1, hcase⟩ := apply_step kv msg op hv hc
  rw [hr] at hr1
  cases hr1
  rcases hcase with ⟨-, hkv, -⟩ | ⟨-, hset, hge⟩
  · exact ⟨b, by rw [hkv]; exact hb, le_refl b⟩
  · by_cases hcc : c = op.ClerkID
    · refine ⟨int64Wrap (op.OpID + 1), by rw [hset, hcc, GoMap.set_same], ?_⟩
      have h1 := int64Wrap_succ_gt op.OpID hlt
      have h2 := hge b (by rw [← hcc]; exact hb)
      omega
    · exact ⟨b, by rw [hset, GoMap.set_other _ _ _ _ hcc]; exact hb, le_refl b⟩

/-- A run over committed commands returns. -/
theorem applyAll_isSome (msgs : List ApplyMsg) (kv : KVServer)
    (h : ∀ m ∈ msgs, m.isCommand) : ∃ kv1, kv.applyAll msgs = some kv1 := by
  induction msgs generalizing kv with
  | nil => exact ⟨kv, rfl⟩
  | cons m rest ih =>
    obtain ⟨hv, op, hc⟩ := h m (List.mem_cons_self m rest)
    obtain ⟨r, hr⟩ := apply_command_isSome kv m op hv hc
    obtain ⟨kv1, h1⟩ := ih r.kv (fun x hx => h x (List.mem_cons_of_mem m hx))
    exact ⟨kv1, by simp only [KVServer.applyAll, hr, h1]⟩

theorem applyAll_append (xs ys : List ApplyMsg) (kv : KVServer) :
    kv.applyAll (xs ++ ys) = (kv.applyAll xs).bind (fun k => k.applyAll ys) := by
  induction xs generalizing kv with
  | nil => rfl
  | cons m rest ih =>
    simp only [List.cons_append, KVServer.applyAll]
    cases kv.apply m with
    | none => rfl
    | some r => exact ih r.kv

theorem belowMax_isCommand (m : ApplyMsg) (h : m.belowMax) : m.isCommand :=
  ⟨h.1, h.2.choose, h.2.choose_spec.1⟩

theorem inRange_belowMax (m : ApplyMsg) (h : m.inRange) : m.belowMax :=
  ⟨h.1, h.2.choose, h.2.choose_spec.1, h.2.choose_spec.2.2⟩

/-- A bolt never decreases along a run over commands below the `int64`
maximum. -/
theorem applyAll_bolt_mono (msgs : List ApplyMsg) (kv kv1 : KVServer)
    (h : ∀ m ∈ msgs, m.belowMax) (hrun : kv.applyAll msgs = some kv1) (c b : Int)
    (hb : kv.clerkBolts c = some b) :
    ∃ b1, kv1.clerkBolts c = some b1 ∧ b ≤ b1 := by
  induction msgs generalizing kv b with
  | nil =>
    simp only [KVServer.applyAll, Option.some.injEq] at hrun
    subst hrun
    exact ⟨b, hb, le_refl b⟩
  | cons m rest ih =>
    simp only [KVServer.applyAll] at hrun
    cases hr : kv.apply m with
    | none => rw [hr] at hrun; simp at hrun
    | some r =>
      rw [hr] at hrun
      obtain ⟨b1, hb1, hle1⟩ :=
        apply_bolt_mono kv m r (h m (List.mem_cons_self m rest)) hr c b hb
      obtain ⟨b2, hb2, hle2⟩ :=
        ih r.kv (fun x hx => h x (List.mem_cons_of_mem m hx)) hrun b1 hb1
      exact ⟨b2, hb2, le_trans hle1 hle2⟩

/-- After the step on a command below the `int64` maximum the bolt of its
clerk is above its `OpID`. -/
theorem apply_bolt_above (kv : KVServer) (msg : ApplyMsg) (op : Op) (r : ApplyResult)
    (hv : msg.CommandValid = true) (hc : msg.Command = some op) (hlt : op.OpID < int64Max)
    (hr : kv.apply msg = some r) :
    ∃ b, r.kv.clerkBolts op.ClerkID = some b ∧ op.OpID < b := by
  obtain ⟨r1, hr1, hcase⟩ := apply_step kv msg op hv hc
  rw [hr] at hr1
  cases hr1
  rcases hcase with ⟨-, hkv, b, hb, hltb⟩ | ⟨-, hset, -⟩
  · exact ⟨b, by rw [hkv]; exact hb, hltb⟩
  · exact ⟨int64Wrap (op.OpID + 1), by rw [hset, GoMap.set_same],
      int64Wrap_succ_gt op.OpID hlt⟩

/-- C1: for every server state, every operation `op` with `OpID` below the
`int64` maximum, all messages `m1`, `m2` committing `op`, every sequence
`s1` of committed commands and every sequence `s2` of committed commands
with `OpID` below the `int64` maximum, the runs of the apply step over
`s1 ++ [m1] ++ s2 ++ [m2]` and over `s1 ++ [m1] ++ s2` both return and end
in the same server state, so with the same data map and the same
`clerkBolts` table: the later commit of `op` has no state-machine effect. -/
theorem apply_retry_no_effect (kv : KVServer) (op : Op) (s1 s2 : List ApplyMsg)
    (m1 m2 : ApplyMsg)
    (h1 : ∀ m ∈ s1, m.isCommand) (h2 : ∀ m ∈ s2, m.belowMax)
    (hm1 : m1.CommandValid = true ∧ m1.Command = some op)
    (hm2 : m2.CommandValid = true ∧ m2.Command = some op)
    (hop : op.OpID < int64Max) :
    ∃ a b, kv.applyAll (s1 ++ [m1] ++ s2 ++ [m2]) = some a ∧
      kv.applyAll (s1 ++ [m1] ++ s2) = some b ∧
      a.data = b.data ∧ a.clerkBolts = b.clerkBolts ∧ a = b := by
  obtain ⟨k1, hk1⟩ := applyAll_isSome s1 kv h1
  obtain ⟨r, hr⟩ := apply_command_isSome k1 m1 op hm1.1 hm1.2
  obtain ⟨k2, hk2⟩ := applyAll_isSome s2 r.kv (fun m hm => belowMax_isCommand m (h2 m hm))
  obtain ⟨b0, hb0, hlt0⟩ := apply_bolt_above k1 m1 op r hm1.1 hm1.2 hop hr
  obtain ⟨b1, hb1, hle⟩ := applyAll_bolt_mono s2 r.kv k2 h2 hk2 op.ClerkID b0 hb0
  obtain ⟨r2, hr2, hsame, -⟩ := apply_old k2 m2 op b1 hm2.1 hm2.2 hb1 (by omega)
  have hshort : kv.applyAll (s1 ++ [m1] ++ s2) = some k2 := by
    rw [applyAll_append, applyAll_append, hk1]
    simp only [Option.some_bind, KVServer.applyAll, hr, hk2]
  have hlong : kv.applyAll (s1 ++ [m1] ++ s2 ++ [m2]) = some k2 := by
    rw [applyAll_append, hshort]
    simp only [Option.some_bind, KVServer.applyAll, hr2, hsame]
  exact ⟨k2, k2, hlong, hshort, rfl, rfl, rfl⟩

theorem apply_retry_no_effect_witness :
    ∃ a b, (StartKVServer (-1) 0).applyAll
        (retryBefore ++ [commandMsg retryOp 2 1] ++ retryBetween ++ [commandMsg retryOp 4 1]) =
          some a ∧
      (StartKVServer (-1) 0).applyAll (retryBefore ++ [commandMsg retryOp 2 1] ++ retryBetween) =
          some b ∧
      a.data = b.data ∧ a.clerkBolts = b.clerkBolts ∧ a = b :=
  apply_retry_no_effect (StartKVServer (-1) 0) retryOp retryBefore retryBetween
    (commandMsg retryOp 2 1) (commandMsg retryOp 4 1)
    (by
      intro m hm
      simp only [retryBefore, List.mem_singleton] at hm
      subst hm
      exact ⟨rfl, _, rfl⟩)
    (by
      intro m hm
      simp only [retryBetween, List.mem_singleton] at hm
      subst hm
      exact ⟨rfl, _, rfl, by decide⟩)
    ⟨rfl, rfl⟩ ⟨rfl, rfl⟩ (by decide)

theorem effectCount_cons (kv : KVServer) (m : ApplyMsg) (rest : List ApplyMsg)
    (r : ApplyResult) (op : Op) (c o : Int)
    (hr : kv.apply m = some r) (hc : m.Command = some op) :
    kv.effectCount c o (m :: rest) =
      (if r.fresh = true ∧ op.ClerkID = c ∧ op.OpID = o then 1 else 0) +
        r.kv.effectCount c o rest := by
  simp only [KVServer.effectCount, hr, hc]

/-- An operation number below the bolt of its clerk is never applied in a
run over commands below the `int64` maximum. -/
theorem effectCount_suppressed (msgs : List ApplyMsg) (kv : KVServer) (c o b : Int)
    (h : ∀ m ∈ msgs, m.belowMax) (hb : kv.clerkBolts c = some b) (hlt : o < b) :
    kv.effectCount c o msgs = 0 := by
  induction msgs generalizing kv b with
  | nil => rfl
  | cons m rest ih =>
    have hm := h m (List.mem_cons_self m rest)
    obtain ⟨hv, op, hc, hmax⟩ := hm
    obtain ⟨r, hr, hcase⟩ := apply_step kv m op hv hc
    obtain ⟨b1, hb1, hle⟩ := apply_bolt_mono kv m r (h m (List.mem_cons_self m rest)) hr c b hb
    rw [effectCount_cons kv m rest r op c o hr hc,
      ih r.kv b1 (fun x hx => h x (List.mem_cons_of_mem m hx)) hb1 (by omega)]
    rcases hcase with ⟨hf, -, -⟩ | ⟨-, -, hge⟩
    · simp [hf]
    · have : ¬ (r.fresh = true ∧ op.ClerkID = c ∧ op.OpID = o) := by
        rintro ⟨-, hcc, hoo⟩
        have := hge b (by rw [hcc]; exact hb)
        omega
      simp [this]

/-- No operation is applied twice in a run over commands below the `int64`
maximum. -/
theorem effectCount_le_one (msgs : List ApplyMsg) (kv : KVServer) (c o : Int)
    (h : ∀ m ∈ msgs, m.belowMax) : kv.effectCount c o msgs ≤ 1 := by
  induction msgs generalizing kv with
  | nil => exact Nat.zero_le 1
  | cons m rest ih =>
    have hm := h m (List.mem_cons_self m rest)
    have hrest : ∀ x ∈ rest, x.belowMax := fun x hx => h x (List.mem_cons_of_mem m hx)
    obtain ⟨hv, op, hc, hmax⟩ := hm
    obtain ⟨r, hr, -⟩ := apply_step kv m op hv hc
    rw [effectCount_cons kv m rest r op c o hr hc]
    by_cases hi : r.fresh = true ∧ op.ClerkID = c ∧ op.OpID = o
    · obtain ⟨b, hb, hlt⟩ := apply_bolt_above kv m op r hv hc hmax hr
      rw [hi.2.1] at hb
      rw [hi.2.2] at hlt
      rw [effectCount_suppressed rest r.kv c o b hrest hb hlt]
      simp [hi]
    · have := ih r.kv hrest
      simp only [hi, if_false]
      omega

/-- The bolt a run ends with was either there at the start or was set by
the one application of the operation just below it. -/
theorem effectCount_top (msgs : List ApplyMsg) (kv kv1 : KVServer) (c b : Int)
    (h : ∀ m ∈ msgs, m.inRange) (hrun : kv.applyAll msgs = some kv1)
    (hb : kv1.clerkBolts c = some b) :
    kv.clerkBolts c = some b ∨ kv.effectCount c (b - 1) msgs = 1 := by
  induction msgs generalizing kv with
  | nil =>
    simp only [KVServer.applyAll, Option.some.injEq] at hrun
    subst hrun
    exact Or.inl hb
  | cons m rest ih =>
    have hrest : ∀ x ∈ rest, x.inRange := fun x hx => h x (List.mem_cons_of_mem m hx)
    have hrestB : ∀ x ∈ rest, x.belowMax := fun x hx => inRange_belowMax x (hrest x hx)
    have hall : ∀ x ∈ m :: rest, x.belowMax := fun x hx => inRange_belowMax x (h x hx)
    obtain ⟨hv, op, hc, hmin, hmax⟩ := h m (List.mem_cons_self m rest)
    obtain ⟨r, hr, hcase⟩ := apply_step kv m op hv hc
    simp only [KVServer.applyAll, hr] at hrun
    have hone := effectCount_le_one (m :: rest) kv c (b - 1) hall
    rw [effectCount_cons kv m rest r op c (b - 1) hr hc] at hone ⊢
    rcases ih r.kv hrest hrun with hsame | hcount
    · rcases hcase with ⟨-, hkv, -⟩ | ⟨hf, hset, -⟩
      · left
        rw [← hkv]
        exact hsame
      · by_cases hcc : c = op.ClerkID
        · right
          rw [hset, hcc, GoMap.set_same, int64Wrap_of_range] at hsame
          · simp only [Option.some.injEq] at hsame
            have hi : r.fresh = true ∧ op.ClerkID = c ∧ op.OpID = b - 1 :=
              ⟨hf, hcc.symm, by omega⟩
            rw [if_pos hi] at hone ⊢
            omega
          · unfold isInt64 int64Min int64Max at *
            omega
        · left
          rw [hset, GoMap.set_other _ _ _ _ hcc] at hsame
          exact hsame
    · right
      rw [hcount] at hone ⊢
      omega

/-- In a run without gaps every operation number from the expected next
number of the clerk at the start up to its bolt at the end is applied
exactly once. -/
theorem effectCount_gapFree (msgs : List ApplyMsg) (kv kv1 : KVServer) (c b o : Int)
    (h : ∀ m ∈ msgs, m.inRange) (hgap : kv.gapFree msgs = true)
    (hrun : kv.applyAll msgs = some kv1) (hb : kv1.clerkBolts c = some b)
    (hlo : (kv.clerkBolts c).getD 0 ≤ o) (hlt : o < b) :
    kv.effectCount c o msgs = 1 := by
  induction msgs generalizing kv with
  | nil =>
    simp only [KVServer.applyAll, Option.some.injEq] at hrun
    subst hrun
    rw [hb] at hlo
    simp only [Option.getD_some] at hlo
    omega
  | cons m rest ih =>
    have hrest : ∀ x ∈ rest, x.inRange := fun x hx => h x (List.mem_cons_of_mem m hx)
    have hrestB : ∀ x ∈ rest, x.belowMax := fun x hx => inRange_belowMax x (hrest x hx)
    obtain ⟨hv, op, hc, hmin, hmax⟩ := h m (List.mem_cons_self m rest)
    obtain ⟨r, hr, hcase⟩ := apply_step kv m op hv hc
    simp only [KVServer.applyAll, hr] at hrun
    simp only [KVServer.gapFree, hr, hc, Bool.and_eq_true, Bool.or_eq_true,
      Bool.not_eq_true', decide_eq_true_eq] at hgap
    obtain ⟨hnext, hgap1⟩ := hgap
    rw [effectCount_cons kv m rest r op c o hr hc]
    rcases hcase with ⟨hf, hkv, -⟩ | ⟨hf, hset, -⟩
    · have hi : ¬ (r.fresh = true ∧ op.ClerkID = c ∧ op.OpID = o) := by simp [hf]
      rw [if_neg hi, ih r.kv hrest hgap1 hrun (by rw [hkv]; exact hlo)]
    · by_cases hcc : op.ClerkID = c
      · have hid : op.OpID = (kv.clerkBolts op.ClerkID).getD 0 := by
          rcases hnext with hx | hx
          · rw [hf] at hx
            exact absurd hx (by decide)
          · exact hx
        rw [hcc] at hid hset
        have hwrap : int64Wrap (op.OpID + 1) = op.OpID + 1 := by
          apply int64Wrap_of_range
          unfold isInt64 int64Min int64Max at *
          omega
        have hb1 : r.kv.clerkBolts c = some (op.OpID + 1) := by
          rw [hset, GoMap.set_same, hwrap]
        by_cases hoo : op.OpID = o
        · have hi : r.fresh = true ∧ op.ClerkID = c ∧ op.OpID = o := ⟨hf, hcc, hoo⟩
          rw [if_pos hi, effectCount_suppressed rest r.kv c o (op.OpID + 1) hrestB hb1
            (by omega)]
        · have hi : ¬ (r.fresh = true ∧ op.ClerkID = c ∧ op.OpID = o) := fun x => hoo x.2.2
          rw [if_neg hi, ih r.kv hrest hgap1 hrun
            (by rw [hb1]; simp only [Option.getD_some]; omega)]
      · have hi : ¬ (r.fresh = true ∧ op.ClerkID = c ∧ op.OpID = o) := fun x => hcc x.2.1
        have hkeep : r.kv.clerkBolts c = kv.clerkBolts c := by
          rw [hset, GoMap.set_other _ _ _ _ (fun e => hcc e.symm)]
        rw [if_neg hi, ih r.kv hrest hgap1 hrun (by rw [hkeep]; exact hlo)]

/-- C3, as the code has it: in every run from the state built by
`StartKVServer` over committed commands whose `OpID` is an `int64` below the
maximum, the run returns, every operation `(c, OpID)` went through the
non-suppressed branch at most once, and for every clerk `c` with a bolt in
the resulting `clerkBolts` the operation with `OpID = clerkBolts[c] - 1`
went through it exactly once; when moreover the run has no gaps (every
operation that went through the branch carried the number expected next for
its clerk, starting at 0), every `OpID` with
`0 <= OpID <= clerkBolts[c] - 1` went through it exactly once. -/
theorem effect_at_most_once (msgs : List ApplyMsg) (maxraftstate raftStateSize : Int)
    (h : ∀ m ∈ msgs, m.inRange) :
    ∃ kv1, (StartKVServer maxraftstate raftStateSize).applyAll msgs = some kv1 ∧
      (∀ c o, (StartKVServer maxraftstate raftStateSize).effectCount c o msgs ≤ 1) ∧
      (∀ c b, kv1.clerkBolts c = some b →
        (StartKVServer maxraftstate raftStateSize).effectCount c (b - 1) msgs = 1) ∧
      ((StartKVServer maxraftstate raftStateSize).gapFree msgs = true →
        ∀ c b o, kv1.clerkBolts c = some b → 0 ≤ o → o ≤ b - 1 →
          (StartKVServer maxraftstate raftStateSize).effectCount c o msgs = 1) := by
  have hB : ∀ m ∈ msgs, m.belowMax := fun m hm => inRange_belowMax m (h m hm)
  obtain ⟨kv1, hrun⟩ := applyAll_isSome msgs (StartKVServer maxraftstate raftStateSize)
    (fun m hm => belowMax_isCommand m (hB m hm))
  refine ⟨kv1, hrun, fun c o => effectCount_le_one msgs _ c o hB, fun c b hb => ?_,
    fun hgap c b o hb h0 hle => ?_⟩
  · rcases effectCount_top msgs _ kv1 c b h hrun hb with h0 | h1
    · simp [StartKVServer, GoMap.empty] at h0
    · exact h1
  · exact effectCount_gapFree msgs _ kv1 c b o h hgap hrun hb
      (by simp [StartKVServer, GoMap.empty, h0]) (by omega)

theorem effect_at_most_once_witness :
    ∃ kv1, (StartKVServer (-1) 0).applyAll threeOps = some kv1 ∧
      (∀ c o, (StartKVServer (-1) 0).effectCount c o threeOps ≤ 1) ∧
      (∀ c b, kv1.clerkBolts c = some b →
        (StartKVServer (-1) 0).effectCount c (b - 1) threeOps = 1) ∧
      ((StartKVServer (-1) 0).gapFree threeOps = true →
        ∀ c b o, kv1.clerkBolts c = some b → 0 ≤ o → o ≤ b - 1 →
          (StartKVServer (-1) 0).effectCount c o threeOps = 1) :=
  effect_at_most_once threeOps (-1) 0
    (by
      intro m hm
      simp only [threeOps, List.mem_cons, List.mem_singleton, List.not_mem_nil, or_false] at hm
      rcases hm with hm | hm | hm <;> subst hm <;> exact ⟨rfl, _, rfl, by decide, by decide⟩)

/-- The run `threeOps` from the empty state ends with `x = "12"` and the
bolt of the clerk at 3, and it has no gaps. -/
theorem threeOps_run :
    ((StartKVServer (-1) 0).applyAll threeOps).map (fun kv1 => (kv1.data "x", kv1.clerkBolts 1)) =
      some (some "12", some 3) ∧
    (StartKVServer (-1) 0).gapFree threeOps = true := by
  decide

/-- C3, as stated, fails: after the run `skippingRun` from the empty state
the bolt of clerk 1 is 6, so `OpID = 0` is at most `clerkBolts[1] - 1`, yet
no step went through the non-suppressed branch for operation `(1, 0)`. -/
theorem exactly_once_counterexample :
    ((StartKVServer (-1) 0).applyAll skippingRun).map (fun kv1 => kv1.clerkBolts 1) =
      some (some 6) ∧
    (0 : Int) ≤ 6 - 1 ∧
    (StartKVServer (-1) 0).effectCount 1 0 skippingRun = 0 := by
  decide

end KVRaft

namespace Raft

open KVRaft (add64 sub64)

/-! ## Compaction -/

/-- Compaction at or beyond `In` empties the live window. -/
theorem discardOldLog_all (log : RaftLog) (guard : Nat) (h : log.In ≤ guard) :
    log.discardOldLog guard =
      some { log with Log := [], Used := 0, Base := add64 guard 1, In := add64 guard 1 } := by
  unfold RaftLog.discardOldLog
  rw [if_pos h]

/-- Compaction below `In` on a well-formed log drops the entries up to
`guard` and keeps the rest. -/
theorem discardOldLog_keep (log : RaftLog) (guard : Nat)
    (hwf : log.wellFormed) (hu : log.isUint64)
    (hbase : log.Base ≤ guard + 1) (h : guard < log.In) :
    log.discardOldLog guard =
      some { log with
        Log := log.Log.drop (guard + 1 - log.Base)
        Used := sub64 log.Used (guard + 1 - log.Base)
        Base := guard + 1 } := by
  obtain ⟨hle, hlen⟩ := hwf
  obtain ⟨hin, hb⟩ := hu
  have hk : add64 (sub64 guard log.Base) 1 = guard + 1 - log.Base := by
    unfold add64 sub64
    omega
  have hg : add64 guard 1 = guard + 1 := by
    unfold add64
    omega
  unfold RaftLog.discardOldLog
  rw [if_neg (by omega)]
  simp only [hk, hg]
  rw [if_pos (by omega)]

/-! ## Lookup -/

/-- Lookup of an index outside the live window. -/
theorem getLogEntryByIndex_not_live (log : RaftLog) (i : Nat)
    (h : ¬ (log.Base ≤ i ∧ i < log.In)) :
    log.getLogEntryByIndex i =
      if i = log.SnapshotLastIndex then
        some (false, some { Term := log.SnapshotLastTerm, Command := none })
      else if i < log.SnapshotLastIndex then some (true, none)
      else some (false, none) := by
  unfold RaftLog.getLogEntryByIndex
  rw [if_neg h]

/-- Lookup of an index inside the live window of a log. -/
theorem getLogEntryByIndex_live (log : RaftLog) (i : Nat) (e : LogEntry)
    (h1 : log.Base ≤ i) (h2 : i < log.In) (hin : log.In < 18446744073709551616)
    (he : log.Log[i - log.Base]? = some e) :
    log.getLogEntryByIndex i = some (false, some e) := by
  have hs : sub64 i log.Base = i - log.Base := by
    unfold sub64
    omega
  unfold RaftLog.getLogEntryByIndex
  rw [if_pos ⟨h1, h2⟩, hs, he]

/-- C9: on a well-formed log whose index fields are `uint64` values, for
every `uint64` guard with `Base <= guard + 1` and every term `t`,
`discardOldLog(guard)` returns, and after it and
`setSnapshotLastIndexAndSnapshotLastTerm(guard, t)`, for every
`i <= getLastLogEntryIndex()`, `getLogEntryByIndex(i)` returns `(true, nil)`
when `i < guard`, `(false, entry with Term = t)` when `i = guard`, and
`(false, e)` with `e` the live entry that was at index `i` when `i > guard`;
it does not panic and never returns `(false, nil)` for such `i`. -/
theorem getLogEntryByIndex_after_compaction (log : RaftLog) (guard t : Nat)
    (hwf : log.wellFormed) (hu : log.isUint64) (hg : guard < 18446744073709551616)
    (hbase : log.Base ≤ guard + 1) :
    ∃ log1, log.discardOldLog guard = some log1 ∧
      ∀ i, i ≤ (log1.setSnapshotLastIndexAndSnapshotLastTerm guard t).getLastLogEntryIndex →
        (i < guard →
          (log1.setSnapshotLastIndexAndSnapshotLastTerm guard t).getLogEntryByIndex i =
            some (true, none)) ∧
        (i = guard →
          (log1.setSnapshotLastIndexAndSnapshotLastTerm guard t).getLogEntryByIndex i =
            some (false, some { Term := t, Command := none })) ∧
        (guard < i →
          ∃ e, log.Log[i - log.Base]? = some e ∧
            (log1.setSnapshotLastIndexAndSnapshotLastTerm guard t).getLogEntryByIndex i =
              some (false, some e)) ∧
        (log1.setSnapshotLastIndexAndSnapshotLastTerm guard t).getLogEntryByIndex i ≠
          some (false, none) ∧
        (log1.setSnapshotLastIndexAndSnapshotLastTerm guard t).getLogEntryByIndex i ≠ none := by
  obtain ⟨hle, hlen⟩ := hwf
  obtain ⟨hin, hb⟩ := hu
  by_cases hcase : log.In ≤ guard
  · refine ⟨_, discardOldLog_all log guard hcase, fun i hi => ?_⟩
    have hi1 : i ≤ guard := by
      simp only [RaftLog.getLastLogEntryIndex,
        RaftLog.setSnapshotLastIndexAndSnapshotLastTerm, add64, sub64] at hi
      omega
    have hlook := getLogEntryByIndex_not_live
      (RaftLog.setSnapshotLastIndexAndSnapshotLastTerm
        { log with Log := [], Used := 0, Base := add64 guard 1, In := add64 guard 1 } guard t)
      i (by simp only [RaftLog.setSnapshotLastIndexAndSnapshotLastTerm]; omega)
    simp only [RaftLog.setSnapshotLastIndexAndSnapshotLastTerm] at hlook ⊢
    rw [hlook]
    refine ⟨fun h => ?_, fun h => ?_, fun h => ?_, ?_, ?_⟩
    · rw [if_neg (by omega), if_pos h]
    · rw [if_pos h]
    · omega
    · split_ifs <;> simp
      omega
    · split_ifs <;> simp
  · have hgl : guard < log.In := by omega
    refine ⟨_, discardOldLog_keep log guard ⟨hle, hlen⟩ ⟨hin, hb⟩ hbase hgl, fun i hi => ?_⟩
    have hi1 : i < log.In := by
      simp only [RaftLog.getLastLogEntryIndex,
        RaftLog.setSnapshotLastIndexAndSnapshotLastTerm, sub64] at hi
      omega
    have hlow : i ≤ guard →
        (RaftLog.setSnapshotLastIndexAndSnapshotLastTerm
          { log with
            Log := log.Log.drop (guard + 1 - log.Base)
            Used := sub64 log.Used (guard + 1 - log.Base)
            Base := guard + 1 } guard t).getLogEntryByIndex i =
          if i = guard then some (false, some { Term := t, Command := none })
          else if i < guard then some (true, none) else some (false, none) := by
      intro hig
      rw [getLogEntryByIndex_not_live _ i
        (by simp only [RaftLog.setSnapshotLastIndexAndSnapshotLastTerm]; omega)]
      simp only [RaftLog.setSnapshotLastIndexAndSnapshotLastTerm]
    have hhigh : guard < i →
        ∃ e, log.Log[i - log.Base]? = some e ∧
          (RaftLog.setSnapshotLastIndexAndSnapshotLastTerm
            { log with
              Log := log.Log.drop (guard + 1 - log.Base)
              Used := sub64 log.Used (guard + 1 - log.Base)
              Base := guard + 1 } guard t).getLogEntryByIndex i = some (false, some e) := by
      intro hgi
      have hlt : i - log.Base < log.Log.length := by omega
      refine ⟨log.Log[i - log.Base], List.getElem?_eq_getElem hlt, ?_⟩
      apply getLogEntryByIndex_live
      · simp only [RaftLog.setSnapshotLastIndexAndSnapshotLastTerm]
        omega
      · simp only [RaftLog.setSnapshotLastIndexAndSnapshotLastTerm]
        exact hi1
      · simp only [RaftLog.setSnapshotLastIndexAndSnapshotLastTerm]
        exact hin
      · simp only [RaftLog.setSnapshotLastIndexAndSnapshotLastTerm]
        rw [List.getElem?_drop]
        have : guard + 1 - log.Base + (i - (guard + 1)) = i - log.Base := by omega
        rw [this]
        exact List.getElem?_eq_getElem hlt
    refine ⟨fun h => ?_, fun h => ?_, hhigh, ?_, ?_⟩
    · rw [hlow (by omega), if_neg (by omega), if_pos h]
    · rw [hlow (by omega), if_pos h]
    · by_cases hig : i ≤ guard
      · rw [hlow hig]
        split_ifs <;> simp
        omega
      · obtain ⟨e, -, he⟩ := hhigh (by omega)
        rw [he]
        simp
    · by_cases hig : i ≤ guard
      · rw [hlow hig]
        split_ifs <;> simp
      · obtain ⟨e, -, he⟩ := hhigh (by omega)
        rw [he]
        simp

theorem getLogEntryByIndex_after_compaction_witness :
    ∃ log1, sampleLog.discardOldLog 0 = some log1 ∧
      ∀ i, i ≤ (log1.setSnapshotLastIndexAndSnapshotLastTerm 0 5).getLastLogEntryIndex →
        (i < 0 →
          (log1.setSnapshotLastIndexAndSnapshotLastTerm 0 5).getLogEntryByIndex i =
            some (true, none)) ∧
        (i = 0 →
          (log1.setSnapshotLastIndexAndSnapshotLastTerm 0 5).getLogEntryByIndex i =
            some (false, some { Term := 5, Command := none })) ∧
        (0 < i →
          ∃ e, sampleLog.Log[i - sampleLog.Base]? = some e ∧
            (log1.setSnapshotLastIndexAndSnapshotLastTerm 0 5).getLogEntryByIndex i =
              some (false, some e)) ∧
        (log1.setSnapshotLastIndexAndSnapshotLastTerm 0 5).getLogEntryByIndex i ≠
          some (false, none) ∧
        (log1.setSnapshotLastIndexAndSnapshotLastTerm 0 5).getLogEntryByIndex i ≠ none :=
  getLogEntryByIndex_after_compaction sampleLog 0 5 (by decide) (by decide) (by decide)
    (by decide)

/-! ## Compaction followed by an append -/

/-- C10, as the code has it: on a well-formed log whose index fields are
`uint64` values, for every `upTo` with `In <= upTo + 1` (the compaction
leaves no live entry) and `upTo + 2` below `2^64`, and every entry `e`,
`discardOldLog(upTo)` returns with `Base = upTo + 1`, `appendEntries([e])`
then returns that index, and after it `getLogEntryByIndex(Base)` returns
`(false, e)`, an entry whose `Term` is `e.Term`. -/
theorem compact_append_lookup (log : RaftLog) (upTo : Nat) (e : LogEntry)
    (hwf : log.wellFormed) (hu : log.isUint64) (hempty : log.In ≤ upTo + 1)
    (hno : upTo + 2 < 18446744073709551616) :
    ∃ log1, log.discardOldLog upTo = some log1 ∧
      log1.Base = upTo + 1 ∧
      (log1.appendEntries [e]).1 = upTo + 1 ∧
      (log1.appendEntries [e]).2.Base = upTo + 1 ∧
      (log1.appendEntries [e]).2.getLogEntryByIndex (log1.appendEntries [e]).2.Base =
        some (false, some e) ∧
      ∃ e1, (log1.appendEntries [e]).2.getLogEntryByIndex (log1.appendEntries [e]).2.Base =
          some (false, some e1) ∧ e1.Term = e.Term := by
  obtain ⟨hle, hlen⟩ := hwf
  have h1 : add64 upTo 1 = upTo + 1 := by
    unfold add64
    omega
  have h2 : add64 (upTo + 1) 1 = upTo + 2 := by
    unfold add64
    omega
  by_cases hcase : log.In ≤ upTo
  · refine ⟨_, discardOldLog_all log upTo hcase, ?_⟩
    simp only [RaftLog.appendEntries, h1, h2, List.nil_append, List.length_singleton]
    have hlook : RaftLog.getLogEntryByIndex
        { log with Log := [e], Used := add64 0 1, Base := upTo + 1, In := upTo + 2 }
        (upTo + 1) = some (false, some e) := by
      apply getLogEntryByIndex_live
      · exact le_refl _
      · simp only
        omega
      · exact hno
      · simp
    exact ⟨trivial, trivial, trivial, hlook, e, hlook, rfl⟩
  · have hgl : upTo < log.In := by omega
    have hdrop : log.Log.drop (upTo + 1 - log.Base) = [] := by
      apply List.drop_eq_nil_of_le
      omega
    refine ⟨_, discardOldLog_keep log upTo ⟨hle, hlen⟩ hu (by omega) hgl, ?_⟩
    have hin : log.In = upTo + 1 := by omega
    simp only [RaftLog.appendEntries, hdrop, hin, h2, List.nil_append, List.length_singleton]
    have hlook : RaftLog.getLogEntryByIndex
        { log with
          Log := [e]
          Used := add64 (sub64 log.Used (upTo + 1 - log.Base)) 1
          Base := upTo + 1
          In := upTo + 2 }
        (upTo + 1) = some (false, some e) := by
      apply getLogEntryByIndex_live
      · exact le_refl _
      · simp only
        omega
      · exact hno
      · simp
    exact ⟨trivial, trivial, trivial, hlook, e, hlook, rfl⟩

theorem compact_append_lookup_witness :
    ∃ log1, sampleLog.discardOldLog 2 = some log1 ∧
      log1.Base = 2 + 1 ∧
      (log1.appendEntries [LogEntry.mk 7 (some 13)]).1 = 2 + 1 ∧
      (log1.appendEntries [LogEntry.mk 7 (some 13)]).2.Base = 2 + 1 ∧
      (log1.appendEntries [LogEntry.mk 7 (some 13)]).2.getLogEntryByIndex
          (log1.appendEntries [LogEntry.mk 7 (some 13)]).2.Base =
        some (false, some (LogEntry.mk 7 (some 13))) ∧
      ∃ e1, (log1.appendEntries [LogEntry.mk 7 (some 13)]).2.getLogEntryByIndex
            (log1.appendEntries [LogEntry.mk 7 (some 13)]).2.Base =
          some (false, some e1) ∧ e1.Term = (LogEntry.mk 7 (some 13)).Term :=
  compact_append_lookup sampleLog 2 (LogEntry.mk 7 (some 13)) (by decide) (by decide)
    (by decide) (by decide)

/-- C10, as stated, fails: on `sampleLog` (live entries of terms 0, 1, 2 at
indices 0, 1, 2), after `discardOldLog(0)` and `appendEntries` of one entry
of term 7, `getLogEntryByIndex(Base)` returns the retained entry of index 1,
whose term is 1 and not 7. -/
theorem compact_append_counterexample :
    (sampleLog.discardOldLog 0).map
        (fun l => (l.appendEntries [LogEntry.mk 7 none]).2.getLogEntryByIndex
          (l.appendEntries [LogEntry.mk 7 none]).2.Base) =
      some (some (false, some (LogEntry.mk 1 (some 11)))) ∧
    (LogEntry.mk 1 (some 11)).Term ≠ (LogEntry.mk 7 none).Term := by
  decide

end Raft

namespace Raft

open KVRaft (add64 sub64)

/-! ## The window after compaction -/

/-- C11: on a well-formed log whose index fields are `uint64` values, for
every `uint64` value `upTo` with `Base <= upTo + 1`, `discardOldLog(upTo)`
returns and sets `Base` to `upTo + 1` (the `uint64` sum, which is the number
`upTo + 1` unless `upTo` is the largest `uint64`); when `upTo >= In - 1`,
that is `In <= upTo + 1`, the live window is empty afterwards and
`In = Base`; otherwise `In` is unchanged and `Log` holds exactly the
`In - upTo - 1` entries that were at the indices `upTo+1 .. In-1`, each at
its index.  The log stays well-formed. -/
theorem discardOldLog_window (log : RaftLog) (upTo : Nat)
    (hwf : log.wellFormed) (hu : log.isUint64) (hg : upTo < 18446744073709551616)
    (hbase : log.Base ≤ upTo + 1) :
    ∃ log1, log.discardOldLog upTo = some log1 ∧
      log1.Base = add64 upTo 1 ∧
      (upTo + 1 < 18446744073709551616 → log1.Base = upTo + 1) ∧
      (log.In ≤ upTo + 1 → log1.Log = [] ∧ log1.In = log1.Base) ∧
      (upTo + 1 < log.In →
        log1.In = log.In ∧
        log1.Log.length = log.In - upTo - 1 ∧
        log1.Log = log.Log.drop (upTo + 1 - log.Base) ∧
        ∀ i, upTo < i → i < log.In →
          ∃ e, log.Log[i - log.Base]? = some e ∧ log1.Log[i - (upTo + 1)]? = some e) ∧
      log1.wellFormed := by
  have hle := hwf.1
  have hlen := hwf.2
  have hin := hu.1
  have hadd : upTo + 1 < 18446744073709551616 → add64 upTo 1 = upTo + 1 := by
    intro h
    unfold add64
    omega
  by_cases hcase : log.In ≤ upTo
  · refine ⟨_, discardOldLog_all log upTo hcase, rfl, hadd, fun _ => ⟨rfl, rfl⟩,
      fun h => ?_, ?_⟩
    · omega
    · exact ⟨le_refl _, by simp⟩
  · have hgl : upTo < log.In := by omega
    have h1 : upTo + 1 < 18446744073709551616 := by omega
    refine ⟨_, discardOldLog_keep log upTo hwf hu hbase hgl, (hadd h1).symm, fun _ => rfl,
      fun h => ?_, fun h => ⟨rfl, ?_, rfl, fun i hi1 hi2 => ?_⟩, ?_⟩
    · have hin1 : log.In = upTo + 1 := by omega
      refine ⟨?_, hin1⟩
      apply List.drop_eq_nil_of_le
      omega
    · simp only [List.length_drop]
      omega
    · have hlt : i - log.Base < log.Log.length := by omega
      refine ⟨log.Log[i - log.Base], List.getElem?_eq_getElem hlt, ?_⟩
      simp only
      rw [List.getElem?_drop]
      have : upTo + 1 - log.Base + (i - (upTo + 1)) = i - log.Base := by omega
      rw [this]
      exact List.getElem?_eq_getElem hlt
    · refine ⟨?_, ?_⟩
      · simp only
        omega
      · simp only [List.length_drop]
        omega

theorem discardOldLog_window_witness :
    ∃ log1, sampleLog.discardOldLog 0 = some log1 ∧
      log1.Base = add64 0 1 ∧
      (0 + 1 < 18446744073709551616 → log1.Base = 0 + 1) ∧
      (sampleLog.In ≤ 0 + 1 → log1.Log = [] ∧ log1.In = log1.Base) ∧
      (0 + 1 < sampleLog.In →
        log1.In = sampleLog.In ∧
        log1.Log.length = sampleLog.In - 0 - 1 ∧
        log1.Log = sampleLog.Log.drop (0 + 1 - sampleLog.Base) ∧
        ∀ i, 0 < i → i < sampleLog.In →
          ∃ e, sampleLog.Log[i - sampleLog.Base]? = some e ∧ log1.Log[i - (0 + 1)]? = some e) ∧
      log1.wellFormed :=
  discardOldLog_window sampleLog 0 (by decide) (by decide) (by decide) (by decide)

/-- C12: on a well-formed log whose index fields are `uint64` values, for
every `uint64` guard with `Base <= guard + 1`, `discardOldLog(guard)`
returns, and for every index `i` with `guard < i < In`,
`getLogEntryByIndex(i)` returns the same live entry after it as before it
and `getLastLogEntryIndex()` has not decreased; the last index does not
decrease either for any guard as soon as the log has `In >= 1`. -/
theorem getLogEntryByIndex_stable (log : RaftLog) (guard : Nat)
    (hwf : log.wellFormed) (hu : log.isUint64) (hg : guard < 18446744073709551616)
    (hbase : log.Base ≤ guard + 1) :
    ∃ log1, log.discardOldLog guard = some log1 ∧
      (∀ i, guard < i → i < log.In →
        log1.getLogEntryByIndex i = log.getLogEntryByIndex i ∧
        (∃ e, log.Log[i - log.Base]? = some e ∧
          log.getLogEntryByIndex i = some (false, some e)) ∧
        log.getLastLogEntryIndex ≤ log1.getLastLogEntryIndex) ∧
      (1 ≤ log.In → log.getLastLogEntryIndex ≤ log1.getLastLogEntryIndex) := by
  have hle := hwf.1
  have hlen := hwf.2
  have hin := hu.1
  by_cases hcase : log.In ≤ guard
  · refine ⟨_, discardOldLog_all log guard hcase, fun i hi1 hi2 => ?_, fun h1 => ?_⟩
    · omega
    · simp only [RaftLog.getLastLogEntryIndex, add64, sub64]
      omega
  · have hgl : guard < log.In := by omega
    have hlast : log.getLastLogEntryIndex ≤
        RaftLog.getLastLogEntryIndex
          { log with
            Log := log.Log.drop (guard + 1 - log.Base)
            Used := sub64 log.Used (guard + 1 - log.Base)
            Base := guard + 1 } := le_refl _
    refine ⟨_, discardOldLog_keep log guard hwf hu hbase hgl, fun i hi1 hi2 => ?_,
      fun _ => hlast⟩
    have hlt : i - log.Base < log.Log.length := by omega
    have hbefore : log.getLogEntryByIndex i = some (false, some log.Log[i - log.Base]) :=
      getLogEntryByIndex_live log i _ (by omega) hi2 hin (List.getElem?_eq_getElem hlt)
    have hafter : RaftLog.getLogEntryByIndex
        { log with
          Log := log.Log.drop (guard + 1 - log.Base)
          Used := sub64 log.Used (guard + 1 - log.Base)
          Base := guard + 1 } i = some (false, some log.Log[i - log.Base]) := by
      apply getLogEntryByIndex_live
      · simp only
        omega
      · exact hi2
      · exact hin
      · simp only
        rw [List.getElem?_drop]
        have : guard + 1 - log.Base + (i - (guard + 1)) = i - log.Base := by omega
        rw [this]
        exact List.getElem?_eq_getElem hlt
    exact ⟨by rw [hafter, hbefore], ⟨_, List.getElem?_eq_getElem hlt, hbefore⟩, hlast⟩

theorem getLogEntryByIndex_stable_witness :
    ∃ log1, sampleLog.discardOldLog 0 = some log1 ∧
      (∀ i, 0 < i → i < sampleLog.In →
        log1.getLogEntryByIndex i = sampleLog.getLogEntryByIndex i ∧
        (∃ e, sampleLog.Log[i - sampleLog.Base]? = some e ∧
          sampleLog.getLogEntryByIndex i = some (false, some e)) ∧
        sampleLog.getLastLogEntryIndex ≤ log1.getLastLogEntryIndex) ∧
      (1 ≤ sampleLog.In → sampleLog.getLastLogEntryIndex ≤ log1.getLastLogEntryIndex) :=
  getLogEntryByIndex_stable sampleLog 0 (by decide) (by decide) (by decide) (by decide)

/-! ## Append -/

/-- C13, as the code has it: on a well-formed log whose index fields are
`uint64` values, for every list of entries with `In + len(entries)` below
`2^64`, `appendEntries` returns the old value of `In`, increases `In` by
exactly `len(entries)` with `Base` unchanged, makes
`getLogEntryByIndex(start + k)` return `entries[k]` for every
`k < len(entries)`, and leaves the result of `getLogEntryByIndex` at every
previously live index unchanged.  The log stays well-formed. -/
theorem appendEntries_effect (log : RaftLog) (entries : List LogEntry)
    (hwf : log.wellFormed) (hu : log.isUint64)
    (hno : log.In + entries.length < 18446744073709551616) :
    (log.appendEntries entries).1 = log.In ∧
    (log.appendEntries entries).2.In = log.In + entries.length ∧
    (log.appendEntries entries).2.Base = log.Base ∧
    (∀ k, k < entries.length →
      ∃ e, entries[k]? = some e ∧
        (log.appendEntries entries).2.getLogEntryByIndex ((log.appendEntries entries).1 + k) =
          some (false, some e)) ∧
    (∀ i, log.Base ≤ i → i < log.In →
      (log.appendEntries entries).2.getLogEntryByIndex i = log.getLogEntryByIndex i ∧
      ∃ e, log.Log[i - log.Base]? = some e ∧
        log.getLogEntryByIndex i = some (false, some e)) ∧
    (log.appendEntries entries).2.wellFormed := by
  have hle := hwf.1
  have hlen := hwf.2
  have hin := hu.1
  have hadd : add64 log.In entries.length = log.In + entries.length := by
    unfold add64
    omega
  simp only [RaftLog.appendEntries, hadd]
  refine ⟨trivial, trivial, trivial, fun k hk => ?_, fun i hi1 hi2 => ?_, ?_⟩
  · refine ⟨entries[k], List.getElem?_eq_getElem hk, ?_⟩
    apply getLogEntryByIndex_live
    · simp only
      omega
    · simp only
      omega
    · exact hno
    · simp only
      rw [List.getElem?_append_right (by omega)]
      have : log.In + k - log.Base - log.Log.length = k := by omega
      rw [this]
      exact List.getElem?_eq_getElem hk
  · have hlt : i - log.Base < log.Log.length := by omega
    have hbefore : log.getLogEntryByIndex i = some (false, some log.Log[i - log.Base]) :=
      getLogEntryByIndex_live log i _ hi1 hi2 hin (List.getElem?_eq_getElem hlt)
    refine ⟨?_, _, List.getElem?_eq_getElem hlt, hbefore⟩
    rw [hbefore]
    apply getLogEntryByIndex_live
    · exact hi1
    · simp only
      omega
    · exact hno
    · simp only
      rw [List.getElem?_append_left hlt]
      exact List.getElem?_eq_getElem hlt
  · refine ⟨?_, ?_⟩
    · simp only
      omega
    · simp only [List.length_append]
      omega

theorem appendEntries_effect_witness :
    (sampleLog.appendEntries [LogEntry.mk 2 (some 13), LogEntry.mk 3 (some 14)]).1 =
      sampleLog.In ∧
    (sampleLog.appendEntries [LogEntry.mk 2 (some 13), LogEntry.mk 3 (some 14)]).2.In =
      sampleLog.In + [LogEntry.mk 2 (some 13), LogEntry.mk 3 (some 14)].length ∧
    (sampleLog.appendEntries [LogEntry.mk 2 (some 13), LogEntry.mk 3 (some 14)]).2.Base =
      sampleLog.Base ∧
    (∀ k, k < [LogEntry.mk 2 (some 13), LogEntry.mk 3 (some 14)].length →
      ∃ e, [LogEntry.mk 2 (some 13), LogEntry.mk 3 (some 14)][k]? = some e ∧
        (sampleLog.appendEntries
            [LogEntry.mk 2 (some 13), LogEntry.mk 3 (some 14)]).2.getLogEntryByIndex
          ((sampleLog.appendEntries [LogEntry.mk 2 (some 13), LogEntry.mk 3 (some 14)]).1 + k) =
          some (false, some e)) ∧
    (∀ i, sampleLog.Base ≤ i → i < sampleLog.In →
      (sampleLog.appendEntries
          [LogEntry.mk 2 (some 13), LogEntry.mk 3 (some 14)]).2.getLogEntryByIndex i =
        sampleLog.getLogEntryByIndex i ∧
      ∃ e, sampleLog.Log[i - sampleLog.Base]? = some e ∧
        sampleLog.getLogEntryByIndex i = some (false, some e)) ∧
    (sampleLog.appendEntries [LogEntry.mk 2 (some 13), LogEntry.mk 3 (some 14)]).2.wellFormed :=
  appendEntries_effect sampleLog [LogEntry.mk 2 (some 13), LogEntry.mk 3 (some 14)]
    (by decide) (by decide) (by decide)

/-- C13, as stated, fails: `edgeLog` is well-formed (empty window at the
largest `uint64` index); `appendEntries` of one entry returns that index as
start, `In` wraps to 0, and `getLogEntryByIndex(start)` returns
`(false, nil)` instead of the appended entry. -/
theorem appendEntries_counterexample :
    edgeLog.wellFormed ∧
    (edgeLog.appendEntries [LogEntry.mk 1 none]).1 = 18446744073709551615 ∧
    (edgeLog.appendEntries [LogEntry.mk 1 none]).2.In = 0 ∧
    (edgeLog.appendEntries [LogEntry.mk 1 none]).2.getLogEntryByIndex
        ((edgeLog.appendEntries [LogEntry.mk 1 none]).1 + 0) = some (false, none) := by
  decide

/-! ## Truncation -/

/-- The result of `deleteEntriesByIndex` on a well-formed log for a
truncation point inside the window. -/
theorem deleteEntriesByIndex_eq (log : RaftLog) (prev : Nat)
    (hwf : log.wellFormed) (hu : log.isUint64)
    (h1 : log.Base ≤ prev + 1) (h2 : prev + 1 ≤ log.In) :
    log.deleteEntriesByIndex prev =
      some { log with
        In := prev + 1
        Used := sub64 log.Used (log.In - (prev + 1))
        Log := log.Log.take (prev + 1 - log.Base) } := by
  obtain ⟨hle, hlen⟩ := hwf
  obtain ⟨hin, hb⟩ := hu
  have hk : add64 (sub64 prev log.Base) 1 = prev + 1 - log.Base := by
    unfold add64 sub64
    omega
  have hn : add64 prev 1 = prev + 1 := by
    unfold add64
    omega
  have hs : sub64 log.In (prev + 1) = log.In - (prev + 1) := by
    unfold sub64
    omega
  unfold RaftLog.deleteEntriesByIndex
  simp only [hk, hn, hs]
  rw [if_pos (by omega)]
  simp

/-- C14: on a well-formed log whose index fields are `uint64` values, for
every `prev` with `Base <= prev + 1 <= In`, `deleteEntriesByIndex(prev)`
returns and sets `In = prev + 1`, leaves `Base` unchanged, leaves the entry
`getLogEntryByIndex` returns at every live index `i <= prev` unchanged, and
leaves no live entry with index above `prev`: `Log` is cut to its first
`prev + 1 - Base` entries and no index above `prev` lies in the window.  The
log stays well-formed. -/
theorem deleteEntriesByIndex_effect (log : RaftLog) (prev : Nat)
    (hwf : log.wellFormed) (hu : log.isUint64)
    (h1 : log.Base ≤ prev + 1) (h2 : prev + 1 ≤ log.In) :
    ∃ log1, log.deleteEntriesByIndex prev = some log1 ∧
      log1.In = prev + 1 ∧
      log1.Base = log.Base ∧
      (∀ i, log.Base ≤ i → i ≤ prev →
        log1.getLogEntryByIndex i = log.getLogEntryByIndex i ∧
        ∃ e, log.Log[i - log.Base]? = some e ∧
          log1.getLogEntryByIndex i = some (false, some e)) ∧
      (∀ i, prev < i → ¬ (log1.Base ≤ i ∧ i < log1.In)) ∧
      log1.Log = log.Log.take (prev + 1 - log.Base) ∧
      log1.Log.length = prev + 1 - log.Base ∧
      log1.wellFormed := by
  have hle := hwf.1
  have hlen := hwf.2
  have hin := hu.1
  refine ⟨_, deleteEntriesByIndex_eq log prev hwf hu h1 h2, rfl, rfl, fun i hi1 hi2 => ?_,
    fun i hi => ?_, rfl, ?_, ?_, ?_⟩
  · have hlt : i - log.Base < log.Log.length := by omega
    have hbefore : log.getLogEntryByIndex i = some (false, some log.Log[i - log.Base]) :=
      getLogEntryByIndex_live log i _ hi1 (by omega) hin (List.getElem?_eq_getElem hlt)
    have hafter : RaftLog.getLogEntryByIndex
        { log with
          In := prev + 1
          Used := sub64 log.Used (log.In - (prev + 1))
          Log := log.Log.take (prev + 1 - log.Base) } i =
          some (false, some log.Log[i - log.Base]) := by
      apply getLogEntryByIndex_live
      · exact hi1
      · simp only
        omega
      · simp only
        omega
      · simp only
        rw [List.getElem?_take, if_pos (by omega)]
        exact List.getElem?_eq_getElem hlt
    exact ⟨by rw [hafter, hbefore], _, List.getElem?_eq_getElem hlt, hafter⟩
  · simp only
    omega
  · simp only [List.length_take]
    omega
  · simp only
    omega
  · simp only [List.length_take]
    omega

theorem deleteEntriesByIndex_effect_witness :
    ∃ log1, sampleLog.deleteEntriesByIndex 0 = some log1 ∧
      log1.In = 0 + 1 ∧
      log1.Base = sampleLog.Base ∧
      (∀ i, sampleLog.Base ≤ i → i ≤ 0 →
        log1.getLogEntryByIndex i = sampleLog.getLogEntryByIndex i ∧
        ∃ e, sampleLog.Log[i - sampleLog.Base]? = some e ∧
          log1.getLogEntryByIndex i = some (false, some e)) ∧
      (∀ i, 0 < i → ¬ (log1.Base ≤ i ∧ i < log1.In)) ∧
      log1.Log = sampleLog.Log.take (0 + 1 - sampleLog.Base) ∧
      log1.Log.length = 0 + 1 - sampleLog.Base ∧
      log1.wellFormed :=
  deleteEntriesByIndex_effect sampleLog 0 (by decide) (by decide) (by decide) (by decide)

/-! ## Ranges -/

/-- The loop of `getLogEntryByRange` started inside the window collects the
next `n` live entries behind what it has already. -/
theorem getLogEntryByRangeLoop_eq (log : RaftLog) (hwf : log.wellFormed) (hu : log.isUint64)
    (n i : Nat) (acc : List LogEntry) (h1 : log.Base ≤ i) (h2 : i + n ≤ log.In) :
    log.getLogEntryByRangeLoop n i acc =
      some (acc ++ (log.Log.drop (i - log.Base)).take n) := by
  have hle := hwf.1
  have hlen := hwf.2
  have hin := hu.1
  induction n generalizing i acc with
  | zero => simp [RaftLog.getLogEntryByRangeLoop]
  | succ n ih =>
    have hlt : i - log.Base < log.Log.length := by omega
    have hs : sub64 i log.Base = i - log.Base := by
      unfold sub64
      omega
    have ha : add64 i 1 = i + 1 := by
      unfold add64
      omega
    simp only [RaftLog.getLogEntryByRangeLoop, hs, List.getElem?_eq_getElem hlt, ha]
    rw [ih (i + 1) (acc ++ [log.Log[i - log.Base]]) (by omega) (by omega),
      List.drop_eq_getElem_cons hlt, List.take_succ_cons]
    have : i + 1 - log.Base = i - log.Base + 1 := by omega
    rw [this]
    simp

/-- C16: on a well-formed log whose index fields are `uint64` values, for
all `from` and `to`, `getLogEntryByRange(from, to)` does not panic; it
returns nil if and only if `from < Base` or `to > In`; otherwise it returns
a slice of `to - from` entries (none when `to <= from`) whose `k`-th entry
is the live entry `getLogEntryByIndex` returns at index `from + k`, that is
the live entries at `from, from+1, ..., to-1` in order. -/
theorem getLogEntryByRange_spec (log : RaftLog) (fromIndex toIndex : Nat)
    (hwf : log.wellFormed) (hu : log.isUint64) :
    ∃ r, log.getLogEntryByRange fromIndex toIndex = some r ∧
      (r = none ↔ (fromIndex < log.Base ∨ log.In < toIndex)) ∧
      (¬ (fromIndex < log.Base ∨ log.In < toIndex) →
        ∃ entries, r = some entries ∧
          entries = (log.Log.drop (fromIndex - log.Base)).take (toIndex - fromIndex) ∧
          entries.length = toIndex - fromIndex ∧
          ∀ k, k < toIndex - fromIndex →
            ∃ e, entries[k]? = some e ∧
              log.getLogEntryByIndex (fromIndex + k) = some (false, some e)) := by
  have hle := hwf.1
  have hlen := hwf.2
  have hin := hu.1
  by_cases hfail : fromIndex < log.Base ∨ log.In < toIndex
  · refine ⟨none, ?_, ⟨fun _ => hfail, fun _ => rfl⟩, fun h => absurd hfail h⟩
    unfold RaftLog.getLogEntryByRange
    rw [if_pos (by omega)]
  · have hloop : log.getLogEntryByRangeLoop (toIndex - fromIndex) fromIndex [] =
        some ([] ++ (log.Log.drop (fromIndex - log.Base)).take (toIndex - fromIndex)) := by
      by_cases hft : fromIndex ≤ toIndex
      · exact getLogEntryByRangeLoop_eq log hwf hu (toIndex - fromIndex) fromIndex []
          (by omega) (by omega)
      · have h0 : toIndex - fromIndex = 0 := by omega
        rw [h0]
        simp [RaftLog.getLogEntryByRangeLoop]
    refine ⟨some ((log.Log.drop (fromIndex - log.Base)).take (toIndex - fromIndex)), ?_,
      ⟨fun h => by simp at h, fun h => absurd h hfail⟩, fun _ => ⟨_, rfl, rfl, ?_, ?_⟩⟩
    · unfold RaftLog.getLogEntryByRange
      rw [if_neg (by omega), hloop]
      simp
    · simp only [List.length_take, List.length_drop]
      omega
    · intro k hk
      have hlt : fromIndex + k - log.Base < log.Log.length := by omega
      refine ⟨log.Log[fromIndex + k - log.Base], ?_, ?_⟩
      · rw [List.getElem?_take, if_pos hk, List.getElem?_drop]
        have : fromIndex - log.Base + k = fromIndex + k - log.Base := by omega
        rw [this]
        exact List.getElem?_eq_getElem hlt
      · exact getLogEntryByIndex_live log (fromIndex + k) _ (by omega) (by omega) hin
          (List.getElem?_eq_getElem hlt)

theorem getLogEntryByRange_spec_witness :
    ∃ r, compactedLog.getLogEntryByRange 4 6 = some r ∧
      (r = none ↔ (4 < compactedLog.Base ∨ compactedLog.In < 6)) ∧
      (¬ (4 < compactedLog.Base ∨ compactedLog.In < 6) →
        ∃ entries, r = some entries ∧
          entries = (compactedLog.Log.drop (4 - compactedLog.Base)).take (6 - 4) ∧
          entries.length = 6 - 4 ∧
          ∀ k, k < 6 - 4 →
            ∃ e, entries[k]? = some e ∧
              compactedLog.getLogEntryByIndex (4 + k) = some (false, some e)) :=
  getLogEntryByRange_spec compactedLog 4 6 (by decide) (by decide)

/-! ## Last index and term -/

/-- C17: on a log that satisfies the structural invariant (`Base <= In` and
`len(Log) = In - Base = Used`) and whose index fields are `uint64` values,
`getLastLogEntryIndexAndTerm` does not panic; it returns
`(SnapshotLastIndex, SnapshotLastTerm)` when the live window is empty
(`Base = In`), and otherwise `(In - 1, Term)` with `Term` the term of the
live entry at index `In - 1`. -/
theorem getLastLogEntryIndexAndTerm_spec (log : RaftLog)
    (hs : log.structural) (hu : log.isUint64) :
    ∃ r, log.getLastLogEntryIndexAndTerm = some r ∧
      (log.Base = log.In → r = (log.SnapshotLastIndex, log.SnapshotLastTerm)) ∧
      (log.Base ≠ log.In →
        ∃ e, log.Log[log.In - 1 - log.Base]? = some e ∧
          log.getLogEntryByIndex (log.In - 1) = some (false, some e) ∧
          r = (log.In - 1, e.Term)) := by
  obtain ⟨hle, hlen, hused⟩ := hs
  obtain ⟨hin, hb⟩ := hu
  by_cases hempty : log.Base = log.In
  · refine ⟨(log.SnapshotLastIndex, log.SnapshotLastTerm), ?_, fun _ => rfl,
      fun h => absurd hempty h⟩
    unfold RaftLog.getLastLogEntryIndexAndTerm
    rw [if_pos (by omega), if_neg (by omega)]
  · have hlt : log.In - 1 - log.Base < log.Log.length := by omega
    have hidx : sub64 (sub64 log.In log.Base) 1 = log.In - 1 - log.Base := by
      unfold sub64
      omega
    have hlast : sub64 log.In 1 = log.In - 1 := by
      unfold sub64
      omega
    refine ⟨(log.In - 1, log.Log[log.In - 1 - log.Base].Term), ?_,
      fun h => absurd h hempty,
      fun _ => ⟨_, List.getElem?_eq_getElem hlt, ?_, rfl⟩⟩
    · unfold RaftLog.getLastLogEntryIndexAndTerm
      rw [if_neg (by omega), hidx, hlast, List.getElem?_eq_getElem hlt]
    · exact getLogEntryByIndex_live log (log.In - 1) _ (by omega) (by omega) hin
        (List.getElem?_eq_getElem hlt)

theorem getLastLogEntryIndexAndTerm_spec_witness :
    ∃ r, compactedLog.getLastLogEntryIndexAndTerm = some r ∧
      (compactedLog.Base = compactedLog.In →
        r = (compactedLog.SnapshotLastIndex, compactedLog.SnapshotLastTerm)) ∧
      (compactedLog.Base ≠ compactedLog.In →
        ∃ e, compactedLog.Log[compactedLog.In - 1 - compactedLog.Base]? = some e ∧
          compactedLog.getLogEntryByIndex (compactedLog.In - 1) = some (false, some e) ∧
          r = (compactedLog.In - 1, e.Term)) :=
  getLastLogEntryIndexAndTerm_spec compactedLog (by decide) (by decide)

/-- The `Used` counter is part of what `getLastLogEntryIndexAndTerm` needs:
on `unsyncedLog`, where `len(Log) = In - Base` holds but `Used` is 0, the
method panics. -/
theorem getLastLogEntryIndexAndTerm_unsynced :
    unsyncedLog.wellFormed ∧ ¬ unsyncedLog.structural ∧
    unsyncedLog.getLastLogEntryIndexAndTerm = none := by
  decide

/-! ## Matching entries -/

/-- From the snapshot tip up to `In` a lookup returns an entry: the live one
inside the window, the synthetic one at the tip. -/
theorem getLogEntryByIndex_defined (log : RaftLog) (hwf : log.wellFormed) (hu : log.isUint64)
    (hb : log.Base = log.SnapshotLastIndex + 1) (i : Nat)
    (h1 : log.SnapshotLastIndex ≤ i) (h2 : i < log.In) :
    ∃ e, log.getLogEntryByIndex i = some (false, some e) := by
  have hle := hwf.1
  have hlen := hwf.2
  have hin := hu.1
  by_cases hlive : log.Base ≤ i
  · have hlt : i - log.Base < log.Log.length := by omega
    exact ⟨_, getLogEntryByIndex_live log i _ hlive h2 hin (List.getElem?_eq_getElem hlt)⟩
  · refine ⟨{ Term := log.SnapshotLastTerm, Command := none }, ?_⟩
    rw [getLogEntryByIndex_not_live log i (by omega), if_pos (by omega)]

/-- The loop of `compareEntries` started at or above the snapshot tip does
not panic and answers whether all the entries match. -/
theorem compareEntriesLoop_spec (log : RaftLog) (hwf : log.wellFormed) (hu : log.isUint64)
    (hb : log.Base = log.SnapshotLastIndex + 1) (entries : List LogEntry) (cur : Nat)
    (hcur : log.SnapshotLastIndex ≤ cur) :
    ∃ b, log.compareEntriesLoop cur entries = some b ∧
      (b = true ↔ ∀ k, k < entries.length →
        cur + k < log.In ∧
        ∃ e e1, log.getLogEntryByIndex (cur + k) = some (false, some e) ∧
          entries[k]? = some e1 ∧ e.Term = e1.Term) := by
  have hin := hu.1
  induction entries generalizing cur with
  | nil =>
    refine ⟨true, rfl, fun _ => ?_, fun _ => rfl⟩
    intro k hk
    simp at hk
  | cons x rest ih =>
    by_cases hge : cur ≥ log.In
    · refine ⟨false, ?_, fun h => by simp at h, fun h => ?_⟩
      · simp only [RaftLog.compareEntriesLoop, if_pos hge]
      · have := (h 0 (by simp)).1
        omega
    · obtain ⟨e, he⟩ := getLogEntryByIndex_defined log hwf hu hb cur hcur (by omega)
      by_cases ht : e.Term ≠ x.Term
      · refine ⟨false, ?_, fun h => by simp at h, fun h => ?_⟩
        · simp only [RaftLog.compareEntriesLoop, if_neg hge, he, if_pos ht]
        · obtain ⟨-, e2, e1, h2, h1, hterm⟩ := h 0 (by simp)
          rw [Nat.add_zero, he] at h2
          simp only [List.getElem?_cons_zero, Option.some.injEq] at h1
          simp only [Option.some.injEq, Prod.mk.injEq, true_and] at h2
          rw [← h2, ← h1] at hterm
          exact absurd hterm ht
      · have hadd : add64 cur 1 = cur + 1 := by
          unfold add64
          omega
        obtain ⟨b, hb1, hiff⟩ := ih (cur + 1) (by omega)
        refine ⟨b, ?_, fun h => ?_, fun h => ?_⟩
        · simp only [RaftLog.compareEntriesLoop, if_neg hge, he, if_neg ht, hadd]
          exact hb1
        · intro k hk
          cases k with
          | zero =>
            refine ⟨by omega, e, x, by rw [Nat.add_zero]; exact he, by simp, ?_⟩
            exact not_not.mp ht
          | succ j =>
            have hj : j < rest.length := by
              simp only [List.length_cons] at hk
              omega
            obtain ⟨hlt, e2, e1, h2, h1, hterm⟩ := (hiff.mp h) j hj
            have hidx : cur + (j + 1) = cur + 1 + j := by omega
            refine ⟨by omega, e2, e1, by rw [hidx]; exact h2, ?_, hterm⟩
            rw [List.getElem?_cons_succ]
            exact h1
        · apply hiff.mpr
          intro j hj
          obtain ⟨hlt, e2, e1, h2, h1, hterm⟩ := h (j + 1) (by simp only [List.length_cons]; omega)
          have hidx : cur + (j + 1) = cur + 1 + j := by omega
          rw [List.getElem?_cons_succ] at h1
          exact ⟨by omega, e2, e1, by rw [← hidx]; exact h2, h1, hterm⟩

/-- C15: on a well-formed log with `Base = SnapshotLastIndex + 1` whose
index fields are `uint64` values, for every `prev` whose successor as the
code computes it (`curIndex := preLogIndex + 1`, the `uint64` sum, which is
the number `prev + 1` unless `prev` is the largest `uint64`) is at least
`SnapshotLastIndex`, and every list of entries, `compareEntries(prev,
entries)` does not panic, so no missing entry is dereferenced, and it
returns true if and only if for every `k < len(entries)` the index
`prev + 1 + k` is below `In` and the entry `getLogEntryByIndex` returns at
that index has the term `entries[k].Term`. -/
theorem compareEntries_spec (log : RaftLog) (prev : Nat) (entries : List LogEntry)
    (hwf : log.wellFormed) (hu : log.isUint64)
    (hb : log.Base = log.SnapshotLastIndex + 1)
    (hprev : log.SnapshotLastIndex ≤ add64 prev 1) :
    ∃ b, log.compareEntries prev entries = some b ∧
      (b = true ↔ ∀ k, k < entries.length →
        add64 prev 1 + k < log.In ∧
        ∃ e e1, log.getLogEntryByIndex (add64 prev 1 + k) = some (false, some e) ∧
          entries[k]? = some e1 ∧ e.Term = e1.Term) ∧
      (prev + 1 < 18446744073709551616 → add64 prev 1 = prev + 1) := by
  obtain ⟨b, h1, h2⟩ := compareEntriesLoop_spec log hwf hu hb entries (add64 prev 1) hprev
  refine ⟨b, h1, h2, fun h => ?_⟩
  unfold add64
  omega

theorem compareEntries_spec_witness :
    ∃ b, compactedLog.compareEntries 2 [LogEntry.mk 2 none, LogEntry.mk 3 none] = some b ∧
      (b = true ↔ ∀ k, k < [LogEntry.mk 2 none, LogEntry.mk 3 none].length →
        add64 2 1 + k < compactedLog.In ∧
        ∃ e e1, compactedLog.getLogEntryByIndex (add64 2 1 + k) = some (false, some e) ∧
          [LogEntry.mk 2 none, LogEntry.mk 3 none][k]? = some e1 ∧ e.Term = e1.Term) ∧
      (2 + 1 < 18446744073709551616 → add64 2 1 = 2 + 1) :=
  compareEntries_spec compactedLog 2 [LogEntry.mk 2 none, LogEntry.mk 3 none]
    (by decide) (by decide) (by decide) (by decide)

/-- The largest `prev` wraps: its successor as the code computes it is 0,
below the snapshot tip of `compactedLog`, and `compareEntries` panics on the
nil entry of an index inside the snapshot. -/
theorem compareEntries_wrap :
    add64 18446744073709551615 1 = 0 ∧
    compactedLog.compareEntries 18446744073709551615 [LogEntry.mk 2 none] = none := by
  decide

/-! ## The structural invariant -/

/-- C19, as the code has it: the predicate `Base <= In` and
`len(Log) = In - Base = Used` holds for `newRaftLog()`; on logs whose index
fields are `uint64` values it is preserved by `appendEntries` when
`In + len(entries)` is below `2^64`, by `deleteEntriesByIndex(prev)` when
`Base <= prev + 1 <= In`, by `discardOldLog(guard)` when `Base <= guard + 1`,
and by `setSnapshotLastIndexAndSnapshotLastTerm`; the two methods that can
panic return, and the index fields stay `uint64` values. -/
theorem structural_preserved :
    newRaftLog.structural ∧ newRaftLog.isUint64 ∧
    (∀ (log : RaftLog) (entries : List LogEntry), log.structural → log.isUint64 →
      log.In + entries.length < 18446744073709551616 →
      (log.appendEntries entries).2.structural ∧ (log.appendEntries entries).2.isUint64) ∧
    (∀ (log : RaftLog) (prev : Nat), log.structural → log.isUint64 →
      log.Base ≤ prev + 1 → prev + 1 ≤ log.In →
      ∃ log1, log.deleteEntriesByIndex prev = some log1 ∧ log1.structural ∧ log1.isUint64) ∧
    (∀ (log : RaftLog) (guard : Nat), log.structural → log.isUint64 →
      guard < 18446744073709551616 → log.Base ≤ guard + 1 →
      ∃ log1, log.discardOldLog guard = some log1 ∧ log1.structural ∧ log1.isUint64) ∧
    (∀ (log : RaftLog) (index term : Nat), log.structural →
      (log.setSnapshotLastIndexAndSnapshotLastTerm index term).structural) := by
  refine ⟨by decide, by decide, ?_, ?_, ?_, ?_⟩
  · rintro log entries ⟨hle, hlen, hused⟩ ⟨hin, hb⟩ hno
    have h1 : add64 log.In entries.length = log.In + entries.length := by
      unfold add64
      omega
    have h2 : add64 log.Used entries.length = log.Used + entries.length := by
      unfold add64
      omega
    simp only [RaftLog.appendEntries, RaftLog.structural, RaftLog.isUint64, h1, h2,
      List.length_append]
    omega
  · rintro log prev ⟨hle, hlen, hused⟩ ⟨hin, hb⟩ hp1 hp2
    refine ⟨_, deleteEntriesByIndex_eq log prev ⟨hle, hlen⟩ ⟨hin, hb⟩ hp1 hp2, ?_, ?_⟩
    · have hs : sub64 log.Used (log.In - (prev + 1)) = prev + 1 - log.Base := by
        unfold sub64
        rw [Nat.mod_eq_of_lt (show log.In - (prev + 1) < 18446744073709551616 by omega), hused]
        have hsum : log.In - log.Base + (18446744073709551616 - (log.In - (prev + 1))) =
            prev + 1 - log.Base + 18446744073709551616 := by omega
        rw [hsum, Nat.add_mod_right]
        exact Nat.mod_eq_of_lt (by omega)
      simp only [RaftLog.structural, hs, List.length_take]
      exact ⟨by omega, by omega, trivial⟩
    · simp only [RaftLog.isUint64]
      omega
  · rintro log guard ⟨hle, hlen, hused⟩ ⟨hin, hb⟩ hg hbase
    by_cases hcase : log.In ≤ guard
    · refine ⟨_, discardOldLog_all log guard hcase, ?_, ?_⟩
      · simp [RaftLog.structural]
      · simp only [RaftLog.isUint64, add64]
        omega
    · refine ⟨_, discardOldLog_keep log guard ⟨hle, hlen⟩ ⟨hin, hb⟩ hbase (by omega), ?_, ?_⟩
      · have hs : sub64 log.Used (guard + 1 - log.Base) = log.In - (guard + 1) := by
          unfold sub64
          rw [Nat.mod_eq_of_lt (show guard + 1 - log.Base < 18446744073709551616 by omega),
            hused]
          have hsum : log.In - log.Base + (18446744073709551616 - (guard + 1 - log.Base)) =
              log.In - (guard + 1) + 18446744073709551616 := by omega
          rw [hsum, Nat.add_mod_right]
          exact Nat.mod_eq_of_lt (by omega)
        simp only [RaftLog.structural, hs, List.length_drop]
        exact ⟨by omega, by omega, trivial⟩
      · simp only [RaftLog.isUint64]
        omega
  · rintro log index term hs
    exact hs

/-- C19, as stated, fails: `edgeLog` satisfies the predicate (empty window
at the largest `uint64` index), and after `appendEntries` of one entry `In`
has wrapped to 0, below `Base`. -/
theorem structural_counterexample :
    edgeLog.structural ∧
    ¬ (edgeLog.appendEntries [LogEntry.mk 1 none]).2.structural ∧
    (edgeLog.appendEntries [LogEntry.mk 1 none]).2.In = 0 ∧
    (edgeLog.appendEntries [LogEntry.mk 1 none]).2.Base = 18446744073709551615 := by
  decide

end Raft

namespace KVRaft

/-! ## A suppressed `Get` -/

/-- C18: on a committed `Get` whose `OpID` is below the bolt of its clerk
the apply step returns, takes the suppressed branch, leaves the server
unchanged, data and `clerkBolts` included, and the value it hands to a
waiter registered at the index under the term of the message is the current
binding of the key (the empty string when the key is absent).  Moreover
there is a run in which that value differs from the one the same
`(ClerkID, OpID)` returned when it was first applied: on `waitingServer` the
first `Get("x")` of clerk 1 hands over the empty string, and the same
operation committed again after a `Put("x", "1")` of clerk 2 is suppressed
and hands over `"1"`. -/
theorem apply_suppressed_get (kv : KVServer) (msg : ApplyMsg) (op : Op) (b : Int)
    (hv : msg.CommandValid = true) (hc : msg.Command = some op) (hget : op.Op = "Get")
    (hb : kv.clerkBolts op.ClerkID = some b) (hlt : op.OpID < b) :
    (∃ r, kv.apply msg = some r ∧
      r.fresh = false ∧
      r.kv.data = kv.data ∧
      r.kv.clerkBolts = kv.clerkBolts ∧
      r.kv = kv ∧
      (∀ ch, kv.finishChans msg.CommandIndex = some ch →
        kv.reqTerm msg.CommandIndex = some (intOfUint64 msg.Term) →
        r.sent = some (ch, (kv.data op.Key).getD ""))) ∧
    ((waitingServer.apply rereadFirst).map (fun r => (r.fresh, r.sent)) =
        some (true, some (41, "")) ∧
      ((waitingServer.applyAll [rereadFirst, rereadPut]).bind
          (fun kv1 => kv1.apply rereadAgain)).map (fun r => (r.fresh, r.sent)) =
        some (false, some (43, "1")) ∧
      rereadAgain.Command = rereadFirst.Command ∧
      ("" : String) ≠ "1") := by
  refine ⟨?_, by decide⟩
  obtain ⟨r, hr, hkv, hf⟩ := apply_old kv msg op b hv hc hb hlt
  refine ⟨r, hr, hf, by rw [hkv], by rw [hkv], hkv, fun ch hch hterm => ?_⟩
  have hr2 := hr
  simp only [KVServer.apply, hv, hc, hb, hlt, hget] at hr2
  simp only [Bool.not_true, Bool.false_eq_true, if_false, decide_True, if_true,
    Option.some.injEq] at hr2
  subst hr2
  have hsame := doCommand_on_get_same kv op hget
  simp only [hsame, hch, hterm, if_true]
  have hval : (kv.doCommand op).1 = (kv.data op.Key).getD "" := by
    unfold KVServer.doCommand
    rw [if_pos hget]
    cases kv.data op.Key <;> rfl
  rw [hval]

theorem apply_suppressed_get_witness :
    (∃ r, sampleServer.apply (commandMsg (Op.mk 1 2 "Get" "x" "") 7 2) = some r ∧
      r.fresh = false ∧
      r.kv.data = sampleServer.data ∧
      r.kv.clerkBolts = sampleServer.clerkBolts ∧
      r.kv = sampleServer ∧
      (∀ ch, sampleServer.finishChans (commandMsg (Op.mk 1 2 "Get" "x" "") 7 2).CommandIndex =
          some ch →
        sampleServer.reqTerm (commandMsg (Op.mk 1 2 "Get" "x" "") 7 2).CommandIndex =
          some (intOfUint64 (commandMsg (Op.mk 1 2 "Get" "x" "") 7 2).Term) →
        r.sent = some (ch, (sampleServer.data (Op.mk 1 2 "Get" "x" "").Key).getD ""))) ∧
    ((waitingServer.apply rereadFirst).map (fun r => (r.fresh, r.sent)) =
        some (true, some (41, "")) ∧
      ((waitingServer.applyAll [rereadFirst, rereadPut]).bind
          (fun kv1 => kv1.apply rereadAgain)).map (fun r => (r.fresh, r.sent)) =
        some (false, some (43, "1")) ∧
      rereadAgain.Command = rereadFirst.Command ∧
      ("" : String) ≠ "1") :=
  apply_suppressed_get sampleServer (commandMsg (Op.mk 1 2 "Get" "x" "") 7 2)
    (Op.mk 1 2 "Get" "x" "") 3 rfl rfl rfl (by decide) (by decide)

/-! ## The state machine does not depend on the waiters or the trigger -/

/-- The data map after `doCommand` depends only on the data map before. -/
theorem doCommand_data_congr (kv1 kv2 : KVServer) (op : Op) (hd : kv1.data = kv2.data) :
    (kv1.doCommand op).2.data = (kv2.doCommand op).2.data := by
  unfold KVServer.doCommand
  rw [hd]
  split_ifs <;> (try cases kv2.data op.Key) <;> simp [hd]

/-- C20: for any two server states that agree on data and `clerkBolts`,
whatever their `finishChans`, `reqTerm`, `maxraftstate` and persisted size,
the apply step on the same message either exits in both (the payload is not
an operation) or returns in both with states that again agree on data and
`clerkBolts`, having taken the same branch. -/
theorem apply_state_machine_only (kv1 kv2 : KVServer) (msg : ApplyMsg)
    (hd : kv1.data = kv2.data) (hb : kv1.clerkBolts = kv2.clerkBolts) :
    (kv1.apply msg = none ∧ kv2.apply msg = none) ∨
    ∃ r1 r2, kv1.apply msg = some r1 ∧ kv2.apply msg = some r2 ∧
      r1.kv.data = r2.kv.data ∧ r1.kv.clerkBolts = r2.kv.clerkBolts ∧
      r1.fresh = r2.fresh := by
  cases hv : msg.CommandValid with
  | false =>
    exact Or.inr
      ⟨{ kv := { kv1 with clerkBolts := msg.Snapshot.ClerkBolts, data := msg.Snapshot.State }
         sent := none
         snapshot := none
         fresh := false },
       { kv := { kv2 with clerkBolts := msg.Snapshot.ClerkBolts, data := msg.Snapshot.State }
         sent := none
         snapshot := none
         fresh := false },
       by simp [KVServer.apply, hv], by simp [KVServer.apply, hv], rfl, rfl, rfl⟩
  | true =>
    cases hc : msg.Command with
    | none =>
      exact Or.inl ⟨by simp [KVServer.apply, hv, hc], by simp [KVServer.apply, hv, hc]⟩
    | some op =>
      right
      have hcase : (∃ b, kv2.clerkBolts op.ClerkID = some b ∧ op.OpID < b) ∨
          (kv2.clerkBolts op.ClerkID = none ∨
            ∃ b, kv2.clerkBolts op.ClerkID = some b ∧ b ≤ op.OpID) := by
        cases hbolt : kv2.clerkBolts op.ClerkID with
        | none => exact Or.inr (Or.inl rfl)
        | some b =>
          by_cases hlt : op.OpID < b
          · exact Or.inl ⟨b, rfl, hlt⟩
          · exact Or.inr (Or.inr ⟨b, rfl, by omega⟩)
      rcases hcase with ⟨b, hbolt, hlt⟩ | hnew
      · obtain ⟨r1, h1, hk1, hf1⟩ := apply_old kv1 msg op b hv hc (by rw [hb]; exact hbolt) hlt
        obtain ⟨r2, h2, hk2, hf2⟩ := apply_old kv2 msg op b hv hc hbolt hlt
        exact ⟨r1, r2, h1, h2, by rw [hk1, hk2]; exact hd, by rw [hk1, hk2]; exact hb,
          by rw [hf1, hf2]⟩
      · obtain ⟨r1, h1, hk1, hf1⟩ := apply_fresh kv1 msg op hv hc (by rw [hb]; exact hnew)
        obtain ⟨r2, h2, hk2, hf2⟩ := apply_fresh kv2 msg op hv hc hnew
        refine ⟨r1, r2, h1, h2, ?_, ?_, by rw [hf1, hf2]⟩
        · rw [hk1, hk2]
          exact doCommand_data_congr kv1 kv2 op hd
        · rw [hk1, hk2]
          simp only [hb]

theorem apply_state_machine_only_witness :
    (sampleServer.apply (commandMsg (Op.mk 1 3 "Append" "x" "2") 7 2) = none ∧
      sampleServerOther.apply (commandMsg (Op.mk 1 3 "Append" "x" "2") 7 2) = none) ∨
    ∃ r1 r2, sampleServer.apply (commandMsg (Op.mk 1 3 "Append" "x" "2") 7 2) = some r1 ∧
      sampleServerOther.apply (commandMsg (Op.mk 1 3 "Append" "x" "2") 7 2) = some r2 ∧
      r1.kv.data = r2.kv.data ∧ r1.kv.clerkBolts = r2.kv.clerkBolts ∧
      r1.fresh = r2.fresh :=
  apply_state_machine_only sampleServer sampleServerOther
    (commandMsg (Op.mk 1 3 "Append" "x" "2") 7 2) rfl rfl

end KVRaft
